import Mathlib

/-!
Verification development for the `npmrm` CLI (src/bin/npmrm.js).

The program's core pieces are shallowly embedded here:

* `runParallel` (npmrm.js lines 53-75): a bounded worker pool over a list of
  asynchronous tasks, modelled as a nondeterministic small-step relation
  `RPStep` on `RPState` (cursor, worker statuses, result slots).  A task's
  eventual outcome is modelled as `Except E V`; a thrown error is captured as
  an `{error: e}` wrapper (`RPRes.errWrap`).
* the filesystem API used by the program (`fs.readdir`, `fs.realpath`,
  `fs.stat`, `fs.lstat`), modelled as a record `Fs` of partial functions over
  paths (`Option` models the rejected-promise / caught-exception case).
* `findNodeModules` (lines 155-250): level-synchronous breadth-first walk,
  embedded with an explicit fuel bound for the outer `while` loop (`none`
  means the fuel ran out before the frontier emptied).
* `getDirSizeBytes` (lines 81-144): breadth-first size accumulator, same
  fuel treatment.
* the deletion phase (lines 252-254 and 382-412) over an environment model
  of Node's `fs.rm` with `force: true` and `maxRetries: 3`.
* the reporting phase (lines 324-327): descending stable sort and total.

Concurrent level processing goes through `runParallel`; since the JS runtime
is single-threaded and every per-node task here is exception-free, the batch
result equals the list of per-node results in input order, which is how the
level functions below are written.
-/

/-- A filesystem path, as the list of its components (absolute). -/
abbrev FsPath := List String

/-- The kind of a directory entry as reported by `fs.readdir` with
`withFileTypes: true` (a `Dirent`): `isDirectory()`, `isFile()`,
`isSymbolicLink()` are mutually exclusive; `other` covers sockets etc. -/
inductive EntKind where
  | dir
  | file
  | symlink
  | other
deriving DecidableEq, Repr

/-- One directory entry from `fs.readdir(dir, { withFileTypes: true })`. -/
structure Dirent where
  name : String
  kind : EntKind
deriving DecidableEq, Repr

/-- The fields of a stat result the program reads: `isDirectory()`,
`isFile()`, `size`. -/
structure FStat where
  isDir : Bool
  isFile : Bool
  size : Nat
deriving DecidableEq, Repr

/-- The filesystem API surface used by npmrm.js, as an abstract environment:
each call either yields a value or fails (`none` = the promise rejected and
the program's `try/catch` caught it). -/
structure Fs where
  readdir : FsPath → Option (List Dirent)
  realpath : FsPath → Option FsPath
  stat : FsPath → Option FStat
  lstat : FsPath → Option FStat

/-- `path.join(dir, name)` for our component-list paths. -/
def pathJoin (dir : FsPath) (name : String) : FsPath := dir ++ [name]

/-! ## runParallel (npmrm.js lines 53-75)

```js
async function runParallel(tasks, concurrency) {
  const results = new Array(tasks.length);
  let index = 0;
  async function worker() {
    while (index < tasks.length) {
      const currentIndex = index++;
      try { results[currentIndex] = await tasks[currentIndex](); }
      catch (e) { results[currentIndex] = { error: e }; }
    }
  }
  const workers = Array.from({ length: Math.min(concurrency, tasks.length) },
    () => worker());
  await Promise.all(workers);
  return results;
}
```

Task `i`'s eventual outcome is `tasks.get? i : Except E V` (ok = the value
the promise resolves to, error = the value it rejects/throws with).  A worker
is `idle` at the `while` head, `running i` between claiming index `i` and its
`await` completing, and `done` once the `while` condition fails.  The check
`index < tasks.length` and the post-increment `index++` happen with no
`await` between them, so claiming is atomic; everything else interleaves
freely, which the step relation's nondeterminism captures. -/

/-- A result slot of `runParallel`: either the task's value or the
`{ error: e }` wrapper built by the `catch`. -/
inductive RPRes (V E : Type) where
  | value (v : V)
  | errWrap (e : E)
deriving DecidableEq, Repr

/-- How a settled task outcome is stored into its result slot
(lines 61-63). -/
def wrapRes {V E : Type} : Except E V → RPRes V E
  | .ok v => .value v
  | .error e => .errWrap e

/-- Status of one worker of `runParallel`. -/
inductive WStatus where
  | idle
  | running (i : Nat)
  | done
deriving DecidableEq, Repr

/-- `true` iff the worker has claimed an index and its task is in flight. -/
def WStatus.isRunning : WStatus → Bool
  | .running _ => true
  | _ => false

/-- The shared state of one `runParallel` call: the claim cursor (`index`),
the status of each worker (workers are numbered; only numbers below the
worker count matter), and the result slots (`none` = still unset). -/
structure RPState (V E : Type) where
  cursor : Nat
  workers : Nat → WStatus
  results : Nat → Option (RPRes V E)

/-- Initial state: `index = 0`, every worker at its loop head, no slot set. -/
def RPInit (V E : Type) : RPState V E :=
  ⟨0, fun _ => .idle, fun _ => none⟩

/-- One scheduler step of the `runParallel` worker pool with `W` workers.
`claim`: an idle worker passes the `while` check and atomically executes
`index++`.  `finish`: a running worker's `await` settles and the slot is
written (value or `{error}` wrapper).  `exit`: an idle worker fails the
`while` check and its `worker()` promise resolves. -/
inductive RPStep {V E : Type} (tasks : List (Except E V)) (W : Nat) :
    RPState V E → RPState V E → Prop where
  | claim (s : RPState V E) (w : Nat) (hw : w < W)
      (hst : s.workers w = .idle) (hc : s.cursor < tasks.length) :
      RPStep tasks W s
        ⟨s.cursor + 1,
         fun w' => if w' = w then .running s.cursor else s.workers w',
         s.results⟩
  | finish (s : RPState V E) (w i : Nat) (t : Except E V) (hw : w < W)
      (hst : s.workers w = .running i) (ht : tasks.get? i = some t) :
      RPStep tasks W s
        ⟨s.cursor,
         fun w' => if w' = w then .idle else s.workers w',
         fun j => if j = i then some (wrapRes t) else s.results j⟩
  | exit (s : RPState V E) (w : Nat) (hw : w < W)
      (hst : s.workers w = .idle) (hc : tasks.length ≤ s.cursor) :
      RPStep tasks W s
        ⟨s.cursor,
         fun w' => if w' = w then .done else s.workers w',
         s.results⟩

/-- A state reachable by the worker pool from the initial state. -/
def RPReach {V E : Type} (tasks : List (Except E V)) (W : Nat)
    (s : RPState V E) : Prop :=
  Relation.ReflTransGen (RPStep tasks W) (RPInit V E) s

/-- Number of task invocations currently in flight. -/
def inFlightCount {V E : Type} (W : Nat) (s : RPState V E) : Nat :=
  ((List.range W).filter (fun w => (s.workers w).isRunning)).length

/-! ## findNodeModules (npmrm.js lines 146-250)

The locator does a level-synchronous BFS.  Each level's nodes are submitted
as tasks to `runParallel`; every task catches its own filesystem errors, so
`result.error` never fires and the batch equals the per-node results in input
order, which is how `levelStep` below threads them.  The shared
`seenRealPaths` set is threaded left-to-right through the level. -/

/-- npmrm.js lines 146-148. -/
def shouldSkipDirName (name : String) : Bool :=
  name == ".git" || name == ".cache"

/-- A frontier node of the locator: a directory path and its depth. -/
structure NodeT where
  dir : FsPath
  depth : Nat
deriving DecidableEq, Repr

/-- The per-entry classification loop of a locator task (lines 192-209):
walks the `readdir` entries producing the task's `nodeModules` matches, its
`subdirs`, and its `symlinkChecks` (in entry order). -/
def classifyFindEntries (dir : FsPath) (depth : Nat) (follow : Bool) :
    List Dirent → List FsPath × List NodeT × List NodeT
  | [] => ([], [], [])
  | ent :: rest =>
    let (nms, subs, syms) := classifyFindEntries dir depth follow rest
    if ent.kind ≠ EntKind.dir ∧ ent.kind ≠ EntKind.symlink then
      (nms, subs, syms)
    else
      let full := pathJoin dir ent.name
      if ent.name = "node_modules" then
        (full :: nms, subs, syms)
      else if shouldSkipDirName ent.name then
        (nms, subs, syms)
      else if ent.kind = EntKind.dir then
        (nms, ⟨full, depth + 1⟩ :: subs, syms)
      else if follow then
        (nms, subs, ⟨full, depth + 1⟩ :: syms)
      else
        (nms, subs, syms)

/-- The symlink checks of a locator task (lines 212-225): `fs.stat` each
candidate; keep it as a subdir iff the stat succeeds and reports a
directory. -/
def resolveSymlinkChecks (fs : Fs) (syms : List NodeT) : List NodeT :=
  syms.filterMap (fun n =>
    match fs.stat n.dir with
    | some st => if st.isDir then some n else none
    | none => none)

/-- The `readdir`-and-classify part of a locator task (lines 181-227),
run after the depth and cycle guards have passed.  A failed `readdir`
contributes nothing (lines 184-186).  The task's subdirs are the plain
directories followed by the symlink-resolved ones, as in the source. -/
def readAndClassify (fs : Fs) (follow : Bool) (nd : NodeT) :
    List FsPath × List NodeT :=
  match fs.readdir nd.dir with
  | none => ([], [])
  | some entries =>
    let (nms, subs, syms) := classifyFindEntries nd.dir nd.depth follow entries
    (nms, subs ++ resolveSymlinkChecks fs syms)

/-- Whether the depth guard of line 166 fires:
`Number.isFinite(maxDepth) && depth > maxDepth`. -/
def depthExceeded (maxDepth : Option Nat) (depth : Nat) : Bool :=
  match maxDepth with
  | none => false
  | some m => decide (m < depth)

/-- One locator task (lines 165-228): depth guard, then (when following
symlinks) the realpath cycle guard — note the real path is added to the seen
set before `readdir`, so it stays recorded even if the listing then fails —
then listing and classification.  Returns the task's matches, its subdirs,
and the updated seen set. -/
def processNode (fs : Fs) (follow : Bool) (maxDepth : Option Nat)
    (seen : List FsPath) (nd : NodeT) :
    List FsPath × List NodeT × List FsPath :=
  if depthExceeded maxDepth nd.depth then
    ([], [], seen)
  else if follow then
    match fs.realpath nd.dir with
    | none => ([], [], seen)
    | some real =>
      if real ∈ seen then
        ([], [], seen)
      else
        let (nms, subs) := readAndClassify fs follow nd
        (nms, subs, real :: seen)
  else
    let (nms, subs) := readAndClassify fs follow nd
    (nms, subs, seen)

/-- One BFS level (lines 230-246): run every node's task, concatenating
matches (into `results`) and subdirs (into `nextLevel`) in input order. -/
def levelStep (fs : Fs) (follow : Bool) (maxDepth : Option Nat) :
    List NodeT → List FsPath → List FsPath × List NodeT × List FsPath
  | [], seen => ([], [], seen)
  | nd :: rest, seen =>
    let (nms, subs, seen') := processNode fs follow maxDepth seen nd
    let (nms', subs', seen'') := levelStep fs follow maxDepth rest seen'
    (nms ++ nms', subs ++ subs', seen'')

/-- The locator's outer `while (currentLevel.length > 0)` loop (lines
163-247), with explicit fuel: `some results` when the frontier empties
within `fuel` iterations, `none` when the fuel runs out first. -/
def findNMAux (fs : Fs) (follow : Bool) (maxDepth : Option Nat) :
    Nat → List FsPath → List NodeT → List FsPath → Option (List FsPath)
  | 0, _, level, acc => if level = [] then some acc else none
  | fuel + 1, seen, level, acc =>
    if level = [] then some acc
    else
      let (nms, next, seen') := levelStep fs follow maxDepth level seen
      findNMAux fs follow maxDepth fuel seen' next (acc ++ nms)

/-- npmrm.js lines 155-250: `findNodeModules(rootPath, { followSymlinks,
maxDepth })`, starting from the resolved root at depth 0 with an empty
seen-realpath set and no matches. -/
def findNodeModules (fs : Fs) (follow : Bool) (maxDepth : Option Nat)
    (rootAbs : FsPath) (fuel : Nat) : Option (List FsPath) :=
  findNMAux fs follow maxDepth fuel [] [⟨rootAbs, 0⟩] []

/-! ## getDirSizeBytes (npmrm.js lines 81-144)

Breadth-first size accumulation: each round lists every pending directory
(list failure means no entries), classifies entries into next-round plain
directories and stat tasks, then runs the stat tasks; a successful file stat
adds its size, a successful symlink stat that reports a directory adds the
path to the next round.  Both batched phases go through `runParallel` with
exception-free tasks, so they equal the in-order per-element results. -/

/-- A queued stat task of `getDirSizeBytes`: either the symlink branch
(lines 106-113, `fs.stat`) or the file branch (lines 118-125, `fs.lstat`). -/
inductive StatTask where
  | sym (full : FsPath)
  | file (full : FsPath)
deriving DecidableEq, Repr

/-- A settled stat-task result (the JS object
`{ isDir, isFile, size, full }`); `none` is the caught stat failure. -/
structure StatRes where
  isDir : Bool
  isFile : Bool
  size : Nat
  full : FsPath
deriving DecidableEq, Repr

/-- The per-entry classification loop of one listed directory (lines
100-128): symlinks queue a stat task only when following symlinks, plain
directories go straight to the next round, files queue an lstat task;
anything else is ignored.  Returns (nextDirs, statTasks) in entry order. -/
def classifySizeEntries (follow : Bool) (dir : FsPath) :
    List Dirent → List FsPath × List StatTask
  | [] => ([], [])
  | ent :: rest =>
    let (dirs, stats) := classifySizeEntries follow dir rest
    let full := pathJoin dir ent.name
    match ent.kind with
    | .symlink => if follow then (dirs, .sym full :: stats) else (dirs, stats)
    | .dir => (full :: dirs, stats)
    | .file => (dirs, .file full :: stats)
    | .other => (dirs, stats)

/-- Run one queued stat task (lines 106-113 / 118-125).  The file branch
reports `isDir: false, isFile: true` from the dirent, taking only `size`
from the lstat. -/
def runStatTask (fs : Fs) : StatTask → Option StatRes
  | .sym full =>
    match fs.stat full with
    | some st => some ⟨st.isDir, st.isFile, st.size, full⟩
    | none => none
  | .file full =>
    match fs.lstat full with
    | some st => some ⟨false, true, st.size, full⟩
    | none => none

/-- The stat-result accumulation loop (lines 133-137): files add their
sizes, directories add their paths to the next round. -/
def accumStatResults : List (Option StatRes) → Nat × List FsPath
  | [] => (0, [])
  | none :: rest => accumStatResults rest
  | some r :: rest =>
    let (sz, dirs) := accumStatResults rest
    ((if r.isFile then r.size else 0) + sz,
     (if r.isDir then [r.full] else []) ++ dirs)

/-- One round of the `while (pending.length > 0)` loop (lines 85-141):
returns the bytes added to `total` this round and the next `pending`.
Plain directories (pushed during classification) precede symlink-resolved
directories (pushed from stat results), as in the source. -/
def sizeLevelStep (fs : Fs) (follow : Bool) (pending : List FsPath) :
    Nat × List FsPath :=
  let perDir := pending.map
    (fun dir => classifySizeEntries follow dir ((fs.readdir dir).getD []))
  let plainDirs := (perDir.map Prod.fst).flatten
  let stats := (perDir.map Prod.snd).flatten
  let (added, symDirs) := accumStatResults (stats.map (runStatTask fs))
  (added, plainDirs ++ symDirs)

/-- The accumulator's outer loop with explicit fuel (`none` = fuel ran out
with directories still pending). -/
def getDirSizeAux (fs : Fs) (follow : Bool) :
    Nat → List FsPath → Nat → Option Nat
  | 0, pending, total => if pending = [] then some total else none
  | fuel + 1, pending, total =>
    if pending = [] then some total
    else
      let (added, next) := sizeLevelStep fs follow pending
      getDirSizeAux fs follow fuel next (total + added)

/-- npmrm.js lines 81-144: `getDirSizeBytes(dirPath, { followSymlinks })`. -/
def getDirSizeBytes (fs : Fs) (follow : Bool) (dirPath : FsPath)
    (fuel : Nat) : Option Nat :=
  getDirSizeAux fs follow fuel [dirPath] 0

/-- `getDirSizeBytes` diverges on this input: no amount of fuel completes
the loop (the JS `while` never exits). -/
def sizeDiverges (fs : Fs) (follow : Bool) (dirPath : FsPath) : Prop :=
  ∀ fuel, getDirSizeBytes fs follow dirPath fuel = none

/-! ## A concrete symlink-free filesystem tree

`FsTree` backs an `Fs` for the size-accumulator refinement theorems: a
finite directory tree with plain files and directories only.  `treeSize` is
the specification-side quantity — the sum of the byte sizes of all regular
files transitively contained. -/

inductive FsTree where
  | file (size : Nat)
  | dir (entries : List (String × FsTree))

mutual

/-- Sum of the sizes of all regular files transitively contained. -/
def treeSize : FsTree → Nat
  | .file s => s
  | .dir es => treeSizeList es

/-- `treeSize` summed over an entry list. -/
def treeSizeList : List (String × FsTree) → Nat
  | [] => 0
  | e :: es => treeSize e.2 + treeSizeList es

end

mutual

/-- Height of a tree: 0 for a file, 1 + the entries' maximum for a
directory (so an empty directory has height 1). -/
def treeHeight : FsTree → Nat
  | .file _ => 0
  | .dir es => treeHeightList es + 1

/-- Maximum `treeHeight` over an entry list (0 when empty). -/
def treeHeightList : List (String × FsTree) → Nat
  | [] => 0
  | e :: es => max (treeHeight e.2) (treeHeightList es)

end

/-- First entry with the given name, as in a directory listing. -/
def lookupChild : List (String × FsTree) → String → Option FsTree
  | [], _ => none
  | e :: es, n => if e.1 = n then some e.2 else lookupChild es n

/-- The subtree a path designates, if any. -/
def subtreeAt : FsTree → FsPath → Option FsTree
  | t, [] => some t
  | .file _, _ :: _ => none
  | .dir es, n :: rest =>
    match lookupChild es n with
    | some c => subtreeAt c rest
    | none => none

/-- The dirent kind of a tree node. -/
def treeKind : FsTree → EntKind
  | .file _ => .file
  | .dir _ => .dir

/-- The `Fs` a symlink-free tree presents, mounted at the empty path:
`readdir` lists a directory's entries with their kinds, `stat`/`lstat`
agree (no symlinks to resolve) and report file sizes, `realpath` is the
identity. -/
def fsOfTree (t : FsTree) : Fs where
  readdir := fun p =>
    match subtreeAt t p with
    | some (.dir es) => some (es.map (fun e => ⟨e.1, treeKind e.2⟩))
    | _ => none
  realpath := fun p => some p
  stat := fun p =>
    match subtreeAt t p with
    | some (.file s) => some ⟨false, true, s⟩
    | some (.dir _) => some ⟨true, false, 0⟩
    | none => none
  lstat := fun p =>
    match subtreeAt t p with
    | some (.file s) => some ⟨false, true, s⟩
    | some (.dir _) => some ⟨true, false, 0⟩
    | none => none

/-! ## The deletion phase (npmrm.js lines 252-254, 382-412)

`removeDir` is `fs.rm(dirPath, { recursive: true, force: true, maxRetries:
3, retryDelay: 200 })`.  `fs.rm` itself is Node runtime, modelled as an
environment: the removal target's behavior is a sequence of per-attempt
outcomes (`ok` = removed, `missing` = already gone, `err` = failed), and
`fs.rm` with `force: true` treats `missing` as success while `maxRetries: 3`
retries a failed attempt up to three more times, finally throwing the last
error. -/

/-- Outcome of one low-level removal attempt on a target. -/
inductive RmRes where
  | ok
  | missing
  | err (msg : String)
deriving DecidableEq, Repr

/-- Environment model of `fs.rm { force: true, maxRetries: n }` running
attempts `i, i+1, ...` with `n` retries left. -/
def rmAttempts (attempts : Nat → RmRes) : Nat → Nat → Except String Unit
  | i, 0 =>
    match attempts i with
    | .ok => .ok ()
    | .missing => .ok ()
    | .err m => .error m
  | i, n + 1 =>
    match attempts i with
    | .ok => .ok ()
    | .missing => .ok ()
    | .err _ => rmAttempts attempts (i + 1) n

/-- npmrm.js lines 252-254: `removeDir` = `fs.rm` with `recursive: true,
force: true, maxRetries: 3, retryDelay: 200` on the target's attempt
sequence. -/
def removeDir (attempts : Nat → RmRes) : Except String Unit :=
  rmAttempts attempts 0 3

/-- One element of `deleteResults` (lines 391, 397). -/
structure DelOutcome where
  success : Bool
  path : FsPath
deriving DecidableEq, Repr

/-- One element of `deleteErrors` (line 393). -/
structure DelError where
  path : FsPath
  error : String
deriving DecidableEq, Repr

/-- One `deleteTasks` task (lines 382-399): try `removeDir`; on success
return `{ success: true, path }`, on failure push `{ path, error }` onto
`deleteErrors` and return `{ success: false, path }`. -/
def deleteTask (env : FsPath → Nat → RmRes) (p : FsPath) :
    DelOutcome × Option DelError :=
  match removeDir (env p) with
  | .ok _ => (⟨true, p⟩, none)
  | .error e => (⟨false, p⟩, some ⟨p, e⟩)

/-- The deletion phase's final data (lines 401-419): the ordered
`deleteResults`, the accumulated `deleteErrors`, and the `removed`/`failed`
tallies of lines 407-412. -/
structure DelReport where
  outcomes : List DelOutcome
  errors : List DelError
  removed : Nat
  failed : Nat
deriving DecidableEq, Repr

/-- npmrm.js lines 382-412: run every deletion task (through `runParallel`,
results in input order; tasks catch their own errors, so no `{error}`
wrappers), collect errors, and tally successes and failures. -/
def deletePhase (env : FsPath → Nat → RmRes) (rows : List FsPath) :
    DelReport :=
  let results := rows.map (deleteTask env)
  let outcomes := results.map Prod.fst
  let errors := results.filterMap Prod.snd
  ⟨outcomes, errors,
   (outcomes.filter (fun o => o.success)).length,
   (outcomes.filter (fun o => !o.success)).length⟩

/-- The paths whose removal actually succeeded. -/
def removedPaths (r : DelReport) : List FsPath :=
  (r.outcomes.filter (fun o => o.success)).map (fun o => o.path)

/-! ## The reporting phase (npmrm.js lines 310-327)

`rows` is the `runParallel` batch of size tasks: each element is either
`{ nmPath, size }` or — had a size task thrown — an `{ error }` wrapper with
no `size` field.  `size : Option Nat` models this; `(r.size || 0)` is
`rowSize`. -/

/-- One size row; `size = none` models a failed/absent size (the JS
`undefined`, for which `r.size || 0` yields 0). -/
structure SizeRow where
  nmPath : FsPath
  size : Option Nat
deriving DecidableEq, Repr

/-- `(r.size || 0)` of lines 324 and 327. -/
def rowSize (r : SizeRow) : Nat := r.size.getD 0

/-- Line 324: `rows.reduce((sum, r) => sum + (r.size || 0), 0)`. -/
def totalBytesOf (rows : List SizeRow) : Nat :=
  rows.foldl (fun sum r => sum + rowSize r) 0

/-- Line 327: `rows.sort((a, b) => (b.size || 0) - (a.size || 0))` — a
stable sort placing larger sizes first (ECMAScript `Array.prototype.sort`
is stable). -/
def sortRows (rows : List SizeRow) : List SizeRow :=
  rows.mergeSort (fun a b => decide (rowSize b ≤ rowSize a))

/-! ## Concrete example filesystems for the claims -/

/-- A tree whose only `node_modules` sits at depth 2 below the root `r`
(`r/a/node_modules`). -/
def fsDepth2 : Fs where
  readdir := fun p =>
    if p = ["r"] then some [⟨"a", .dir⟩]
    else if p = ["r", "a"] then some [⟨"node_modules", .dir⟩]
    else if p = ["r", "a", "node_modules"] then some []
    else none
  realpath := fun p => some p
  stat := fun _ => none
  lstat := fun _ => none

/-- A root itself named `node_modules` (`a/node_modules`), containing
`inner/node_modules`. -/
def fsRootNM : Fs where
  readdir := fun p =>
    if p = ["a", "node_modules"] then some [⟨"inner", .dir⟩]
    else if p = ["a", "node_modules", "inner"] then some [⟨"node_modules", .dir⟩]
    else none
  realpath := fun p => some p
  stat := fun _ => none
  lstat := fun _ => none

/-- A tree containing `r/a/node_modules/node_modules/x`. -/
def fsNested : Fs where
  readdir := fun p =>
    if p = ["r"] then some [⟨"a", .dir⟩]
    else if p = ["r", "a"] then some [⟨"node_modules", .dir⟩]
    else if p = ["r", "a", "node_modules"] then some [⟨"node_modules", .dir⟩]
    else if p = ["r", "a", "node_modules", "node_modules"] then some [⟨"x", .dir⟩]
    else none
  realpath := fun p => some p
  stat := fun _ => none
  lstat := fun _ => none

/-- A tree containing `r/a/.git/node_modules`. -/
def fsGit : Fs where
  readdir := fun p =>
    if p = ["r"] then some [⟨"a", .dir⟩]
    else if p = ["r", "a"] then some [⟨".git", .dir⟩]
    else if p = ["r", "a", ".git"] then some [⟨"node_modules", .dir⟩]
    else none
  realpath := fun p => some p
  stat := fun _ => none
  lstat := fun _ => none

/-- `r/a` holds a `node_modules` and a symlink `loop` back to the ancestor
`r` (so `realpath(r/a/loop) = r`). -/
def fsCycle : Fs where
  readdir := fun p =>
    if p = ["r"] then some [⟨"a", .dir⟩]
    else if p = ["r", "a"] then some [⟨"node_modules", .dir⟩, ⟨"loop", .symlink⟩]
    else none
  realpath := fun p =>
    if p = ["r"] then some ["r"]
    else if p = ["r", "a"] then some ["r", "a"]
    else if p = ["r", "a", "loop"] then some ["r"]
    else none
  stat := fun p => if p = ["r", "a", "loop"] then some ⟨true, false, 0⟩ else none
  lstat := fun _ => none

/-- The realpaths `fsCycle.realpath` can produce. -/
def fsCycleReals : List FsPath := [["r"], ["r", "a"]]

/-- Directory with files of 100, 200 and 300 bytes plus one empty
subdirectory. -/
def egTree600 : FsTree :=
  .dir [("f1", .file 100), ("f2", .file 200), ("f3", .file 300),
        ("sub", .dir [])]

/-- Directory holding files only inside `.git`- and `node_modules`-named
subdirectories (the accumulator must not skip them). -/
def egTreeSkip : FsTree :=
  .dir [(".git", .dir [("f", .file 7)]),
        ("node_modules", .dir [("g", .file 9)])]

/-- `d` holds a 5-byte regular file and a symlink to a 7-byte file
elsewhere. -/
def fsSymFile : Fs where
  readdir := fun p =>
    if p = ["d"] then some [⟨"f", .file⟩, ⟨"s", .symlink⟩]
    else none
  realpath := fun p => some p
  stat := fun p => if p = ["d", "s"] then some ⟨false, true, 7⟩ else none
  lstat := fun p => if p = ["d", "f"] then some ⟨false, true, 5⟩ else none

/-- Every directory (`a`, `a/loop`, `a/loop/loop`, …) lists exactly a
symlink `loop` resolving to the directory `a` itself: the unbounded chase a
real symlink cycle presents to a follower with no cycle guard. -/
def fsLoop : Fs where
  readdir := fun _ => some [⟨"loop", .symlink⟩]
  realpath := fun p => some p
  stat := fun _ => some ⟨true, false, 0⟩
  lstat := fun _ => none

/-- Five deletion targets. -/
def egDelPaths : List FsPath :=
  [["p1"], ["p2"], ["p3"], ["p4"], ["p5"]]

/-- Deletion environment where the third target always fails with a
permission error and every other target is removed on the first attempt. -/
def egDelEnv : FsPath → Nat → RmRes := fun p _ =>
  if p = ["p3"] then .err "EACCES: permission denied" else .ok

/-- `d` holds two regular files; the lstat of the first always fails, the
second is 3 bytes. -/
def fsStatFail : Fs where
  readdir := fun p =>
    if p = ["d"] then some [⟨"f1", .file⟩, ⟨"f2", .file⟩]
    else none
  realpath := fun p => some p
  stat := fun _ => none
  lstat := fun p => if p = ["d", "f2"] then some ⟨false, true, 3⟩ else none

/-! ## Specification-side helpers for the size refinement -/

/-- Total size of the regular files directly in an entry list. -/
def entriesFileSum : List (String × FsTree) → Nat
  | [] => 0
  | (_, .file s) :: es => s + entriesFileSum es
  | (_, .dir _) :: es => entriesFileSum es

/-- `treeSize` of the subtree each path designates, summed (a dangling
path counts 0). -/
def pathsSize (t : FsTree) (ps : List FsPath) : Nat :=
  (ps.map (fun p => treeSize ((subtreeAt t p).getD (FsTree.file 0)))).sum

mutual

/-- Well-formedness of a tree as a real directory could present it: no two
entries of a directory share a name. -/
def treeWF : FsTree → Bool
  | .file _ => true
  | .dir es => decide ((es.map Prod.fst).Nodup) && treeWFList es

/-- `treeWF` over an entry list. -/
def treeWFList : List (String × FsTree) → Bool
  | [] => true
  | e :: es => treeWF e.2 && treeWFList es

end

/-- Entries of the 600-byte example directory. -/
def egEntries600 : List (String × FsTree) :=
  [("f1", .file 100), ("f2", .file 200), ("f3", .file 300),
   ("sub", .dir [])]

/-- Entries of the skip-name example directory. -/
def egEntriesSkip : List (String × FsTree) :=
  [(".git", .dir [("f", .file 7)]),
   ("node_modules", .dir [("g", .file 9)])]

/-! ## Invariant of the runParallel worker pool -/

/-- The inductive invariant of the `runParallel` pool with `W` workers:
the cursor never passes the task count; a filled slot holds exactly the
wrap of its task's outcome and its index was claimed; a running index was
claimed; a running index's slot is still empty; no index is run by two
workers; every claimed index is either filled or held by exactly one
running worker; a worker exits only once the cursor is exhausted. -/
structure RPInv {V E : Type} (tasks : List (Except E V)) (W : Nat)
    (s : RPState V E) : Prop where
  cursor_le : s.cursor ≤ tasks.length
  res_content : ∀ i r, s.results i = some r →
    i < s.cursor ∧ ∃ t, tasks.get? i = some t ∧ r = wrapRes t
  run_lt : ∀ w i, w < W → s.workers w = .running i → i < s.cursor
  disj : ∀ w i, w < W → s.workers w = .running i → s.results i = none
  inj : ∀ w₁ w₂ i, w₁ < W → w₂ < W → s.workers w₁ = .running i →
    s.workers w₂ = .running i → w₁ = w₂
  cover : ∀ i, i < s.cursor →
    (s.results i).isSome = true ∨ ∃ w, w < W ∧ s.workers w = .running i
  done_cursor : ∀ w, w < W → s.workers w = .done → s.cursor = tasks.length

/-! ## A concrete one-task, one-worker schedule of runParallel -/

/-- One task resolving to 42. -/
def egTasks : List (Except String Nat) := [Except.ok 42]

/-- After the single worker claims index 0. -/
def egS1 : RPState Nat String :=
  ⟨(RPInit Nat String).cursor + 1,
   fun w' => if w' = 0 then .running (RPInit Nat String).cursor
             else (RPInit Nat String).workers w',
   (RPInit Nat String).results⟩

/-- After task 0 settles and its slot is written. -/
def egS2 : RPState Nat String :=
  ⟨egS1.cursor,
   fun w' => if w' = 0 then .idle else egS1.workers w',
   fun j => if j = 0 then some (wrapRes (Except.ok 42)) else egS1.results j⟩

/-- After the worker observes the exhausted cursor and exits. -/
def egS3 : RPState Nat String :=
  ⟨egS2.cursor,
   fun w' => if w' = 0 then .done else egS2.workers w',
   egS2.results⟩

/-- The stat results one listed directory contributes in a
`getDirSizeBytes` round. -/
def perDirStats (fs : Fs) (follow : Bool) (dir : FsPath) :
    List (Option StatRes) :=
  ((classifySizeEntries follow dir ((fs.readdir dir).getD [])).2).map
    (runStatTask fs)

/-- The plain subdirectories one listed directory contributes. -/
def perDirDirs (fs : Fs) (follow : Bool) (dir : FsPath) : List FsPath :=
  (classifySizeEntries follow dir ((fs.readdir dir).getD [])).1

/-- The bytes one listed directory's stat results add to the total. -/
def perDirAdded (fs : Fs) (follow : Bool) (dir : FsPath) : Nat :=
  (accumStatResults (perDirStats fs follow dir)).1

/-- The symlink-resolved directories one listed directory contributes. -/
def perDirSymDirs (fs : Fs) (follow : Bool) (dir : FsPath) : List FsPath :=
  (accumStatResults (perDirStats fs follow dir)).2

/-- The dirent list a tree directory's entries present. -/
def treeDirents (es : List (String × FsTree)) : List Dirent :=
  es.map (fun e => ⟨e.1, treeKind e.2⟩)

/-! # Theorems -/


theorem rpInv_init {V E : Type} (tasks : List (Except E V)) (W : Nat) :
    RPInv tasks W (RPInit V E) := by
  refine ⟨Nat.zero_le _, ?_, ?_, ?_, ?_, ?_, ?_⟩ <;> dsimp only [RPInit]
  · intro i r h; cases h
  · intro w i _ h; cases h
  · intro w i _ h; cases h
  · intro w₁ w₂ i _ _ h; cases h
  · intro i hi; omega
  · intro w _ h; cases h

theorem rpInv_step {V E : Type} {tasks : List (Except E V)} {W : Nat}
    {s s' : RPState V E} (hinv : RPInv tasks W s)
    (hstep : RPStep tasks W s s') : RPInv tasks W s' := by
  cases hstep with
  | claim w hw hst hc =>
    refine ⟨?_, ?_, ?_, ?_, ?_, ?_, ?_⟩ <;> dsimp only
    · omega
    · intro i r h
      obtain ⟨hlt, t, ht, hr⟩ := hinv.res_content i r h
      exact ⟨by omega, t, ht, hr⟩
    · intro w' i hw' hr
      by_cases hww : w' = w
      · rw [if_pos hww] at hr
        cases hr
        omega
      · rw [if_neg hww] at hr
        have := hinv.run_lt w' i hw' hr
        omega
    · intro w' i hw' hr
      by_cases hww : w' = w
      · rw [if_pos hww] at hr
        cases hr
        rcases hres : s.results s.cursor with _ | r
        · rfl
        · have := (hinv.res_content _ r hres).1
          omega
      · rw [if_neg hww] at hr
        exact hinv.disj w' i hw' hr
    · intro w₁ w₂ i h1 h2 hr1 hr2
      by_cases e1 : w₁ = w <;> by_cases e2 : w₂ = w
      · rw [e1, e2]
      · rw [if_pos e1] at hr1
        rw [if_neg e2] at hr2
        cases hr1
        have := hinv.run_lt w₂ _ h2 hr2
        omega
      · rw [if_neg e1] at hr1
        rw [if_pos e2] at hr2
        cases hr2
        have := hinv.run_lt w₁ _ h1 hr1
        omega
      · rw [if_neg e1] at hr1
        rw [if_neg e2] at hr2
        exact hinv.inj w₁ w₂ i h1 h2 hr1 hr2
    · intro i hi
      rcases Nat.lt_succ_iff_lt_or_eq.mp hi with hi' | rfl
      · rcases hinv.cover i hi' with hsome | ⟨w₀, hw₀, hrw⟩
        · exact Or.inl hsome
        · refine Or.inr ⟨w₀, hw₀, ?_⟩
          have hne : w₀ ≠ w := by
            intro e
            rw [e, hst] at hrw
            cases hrw
          rw [if_neg hne]
          exact hrw
      · exact Or.inr ⟨w, hw, by rw [if_pos rfl]⟩
    · intro w' hw' hdone
      by_cases hww : w' = w
      · rw [if_pos hww] at hdone
        cases hdone
      · rw [if_neg hww] at hdone
        have := hinv.done_cursor w' hw' hdone
        omega
  | finish w i t hw hst ht =>
    have hi_lt : i < s.cursor := hinv.run_lt w i hw hst
    refine ⟨?_, ?_, ?_, ?_, ?_, ?_, ?_⟩ <;> dsimp only
    · exact hinv.cursor_le
    · intro j r h
      by_cases hj : j = i
      · subst hj
        rw [if_pos rfl] at h
        cases h
        exact ⟨hi_lt, t, ht, rfl⟩
      · rw [if_neg hj] at h
        exact hinv.res_content j r h
    · intro w' j hw' hr
      by_cases hww : w' = w
      · rw [if_pos hww] at hr
        cases hr
      · rw [if_neg hww] at hr
        exact hinv.run_lt w' j hw' hr
    · intro w' j hw' hr
      by_cases hww : w' = w
      · rw [if_pos hww] at hr
        cases hr
      · rw [if_neg hww] at hr
        have hji : j ≠ i := by
          intro e
          subst e
          exact hww (hinv.inj w' w j hw' hw hr hst)
        rw [if_neg hji]
        exact hinv.disj w' j hw' hr
    · intro w₁ w₂ j h1 h2 hr1 hr2
      by_cases e1 : w₁ = w
      · rw [if_pos e1] at hr1
        cases hr1
      · by_cases e2 : w₂ = w
        · rw [if_pos e2] at hr2
          cases hr2
        · rw [if_neg e1] at hr1
          rw [if_neg e2] at hr2
          exact hinv.inj w₁ w₂ j h1 h2 hr1 hr2
    · intro j hj
      by_cases hji : j = i
      · subst hji
        rw [if_pos rfl]
        exact Or.inl rfl
      · rw [if_neg hji]
        rcases hinv.cover j hj with hsome | ⟨w₀, hw₀, hrw⟩
        · exact Or.inl hsome
        · refine Or.inr ⟨w₀, hw₀, ?_⟩
          have hne : w₀ ≠ w := by
            intro e
            rw [e, hst] at hrw
            cases hrw
            exact hji rfl
          rw [if_neg hne]
          exact hrw
    · intro w' hw' hdone
      by_cases hww : w' = w
      · rw [if_pos hww] at hdone
        cases hdone
      · rw [if_neg hww] at hdone
        exact hinv.done_cursor w' hw' hdone
  | exit w hw hst hc =>
    refine ⟨?_, ?_, ?_, ?_, ?_, ?_, ?_⟩ <;> dsimp only
    · exact hinv.cursor_le
    · exact hinv.res_content
    · intro w' j hw' hr
      by_cases hww : w' = w
      · rw [if_pos hww] at hr
        cases hr
      · rw [if_neg hww] at hr
        exact hinv.run_lt w' j hw' hr
    · intro w' j hw' hr
      by_cases hww : w' = w
      · rw [if_pos hww] at hr
        cases hr
      · rw [if_neg hww] at hr
        exact hinv.disj w' j hw' hr
    · intro w₁ w₂ j h1 h2 hr1 hr2
      by_cases e1 : w₁ = w
      · rw [if_pos e1] at hr1
        cases hr1
      · by_cases e2 : w₂ = w
        · rw [if_pos e2] at hr2
          cases hr2
        · rw [if_neg e1] at hr1
          rw [if_neg e2] at hr2
          exact hinv.inj w₁ w₂ j h1 h2 hr1 hr2
    · intro j hj
      rcases hinv.cover j hj with hsome | ⟨w₀, hw₀, hrw⟩
      · exact Or.inl hsome
      · refine Or.inr ⟨w₀, hw₀, ?_⟩
        have hne : w₀ ≠ w := by
          intro e
          rw [e, hst] at hrw
          cases hrw
        rw [if_neg hne]
        exact hrw
    · intro w' hw' hdone
      by_cases hww : w' = w
      · have := hinv.cursor_le
        omega
      · rw [if_neg hww] at hdone
        exact hinv.done_cursor w' hw' hdone

theorem rpInv_reach {V E : Type} {tasks : List (Except E V)} {W : Nat}
    {s : RPState V E} (h : RPReach tasks W s) : RPInv tasks W s := by
  induction h with
  | refl => exact rpInv_init tasks W
  | tail _ hstep ih => exact rpInv_step ih hstep

/-- C1: for every finite task list and every concurrency limit C ≥ 1, in
every reachable state of `runParallel` in which all workers have finished,
result slot i holds exactly the wrap of task i's outcome — the task's value,
or the `{error: e}` wrapper if it threw — for every i below the task count,
and no slot beyond the task count is ever written; so a throwing task never
prevents any other task's completion and the call itself never rejects,
regardless of completion order. -/
theorem runParallel_result_alignment {V E : Type} (tasks : List (Except E V))
    (C : Nat) (hC : 1 ≤ C) (s : RPState V E)
    (hreach : RPReach tasks (min C tasks.length) s)
    (hfinal : ∀ w, w < min C tasks.length → s.workers w = .done) :
    (∀ i, i < tasks.length →
      ∃ t, tasks.get? i = some t ∧ s.results i = some (wrapRes t))
    ∧ (∀ i, tasks.length ≤ i → s.results i = none) := by
  have hinv := rpInv_reach hreach
  constructor
  · intro i hi
    have hW : 0 < min C tasks.length := lt_min (by omega) (by omega)
    have hdone := hfinal 0 hW
    have hcur : s.cursor = tasks.length := hinv.done_cursor 0 hW hdone
    have hi' : i < s.cursor := by omega
    rcases hinv.cover i hi' with hsome | ⟨w₀, hw₀, hrw⟩
    · rcases hs : s.results i with _ | r
      · rw [hs] at hsome
        cases hsome
      · obtain ⟨_, t, ht, rfl⟩ := hinv.res_content i r hs
        exact ⟨t, ht, rfl⟩
    · rw [hfinal w₀ hw₀] at hrw
      cases hrw
  · intro i hi
    rcases hs : s.results i with _ | r
    · rfl
    · have hlt := (hinv.res_content i r hs).1
      have := hinv.cursor_le
      omega

theorem egStep1 : RPStep egTasks 1 (RPInit Nat String) egS1 :=
  RPStep.claim (RPInit Nat String) 0 (by omega) rfl (by decide)

theorem egStep2 : RPStep egTasks 1 egS1 egS2 :=
  RPStep.finish egS1 0 0 (Except.ok 42) (by omega) rfl rfl

theorem egStep3 : RPStep egTasks 1 egS2 egS3 :=
  RPStep.exit egS2 0 (by omega) rfl (by decide)

theorem egReach : RPReach egTasks (min 1 egTasks.length) egS3 :=
  Relation.ReflTransGen.tail
    (Relation.ReflTransGen.tail
      (Relation.ReflTransGen.single egStep1) egStep2) egStep3

theorem egS3_done : ∀ w, w < min 1 egTasks.length → egS3.workers w = .done := by
  intro w hw
  have hw' : w = 0 := by
    simp only [egTasks, List.length_cons, List.length_nil] at hw
    omega
  subst hw'
  rfl

/-- Witness for C1: on the one-task schedule claim-finish-exit, slot 0 of
the final state holds the value 42 wrapped from task 0. -/
theorem runParallel_result_alignment_witness :
    egS3.results 0 = some (RPRes.value 42) := by
  obtain ⟨t, ht, hr⟩ :=
    (runParallel_result_alignment egTasks 1 (by omega) egS3 egReach
      egS3_done).1 0 (by decide)
  have het : Except.ok 42 = t := by
    simpa [egTasks] using ht
  subst het
  exact hr

/-- C4: in every reachable state of `runParallel` with limit C ≥ 1, at most
min(C, N) task invocations are in flight; no index is held by two workers at
once; a claimed index is held by a running worker or already settled into
its slot, exclusively; an unclaimed index has no holder at all (the cursor
advances one claim at a time, so no index is double-claimed or skipped);
and once all workers are done every index below the task count has been
invoked and settled exactly once. -/
theorem runParallel_bounded_exactly_once {V E : Type}
    (tasks : List (Except E V)) (C : Nat) (hC : 1 ≤ C) (s : RPState V E)
    (hreach : RPReach tasks (min C tasks.length) s) :
    inFlightCount (min C tasks.length) s ≤ min C tasks.length
    ∧ (∀ w₁ w₂ i, w₁ < min C tasks.length → w₂ < min C tasks.length →
        s.workers w₁ = .running i → s.workers w₂ = .running i → w₁ = w₂)
    ∧ (∀ w i, w < min C tasks.length → s.workers w = .running i →
        s.results i = none ∧ i < s.cursor)
    ∧ (∀ i, i < s.cursor → (s.results i).isSome = true
        ∨ ∃ w, w < min C tasks.length ∧ s.workers w = .running i)
    ∧ (∀ i, s.cursor ≤ i → s.results i = none)
    ∧ ((∀ w, w < min C tasks.length → s.workers w = .done) →
        ∀ i, i < tasks.length → (s.results i).isSome = true) := by
  have hinv := rpInv_reach hreach
  refine ⟨?_, hinv.inj, ?_, hinv.cover, ?_, ?_⟩
  · calc inFlightCount (min C tasks.length) s
        ≤ (List.range (min C tasks.length)).length :=
          List.length_filter_le _ _
      _ = min C tasks.length := List.length_range _
  · intro w i hw hr
    exact ⟨hinv.disj w i hw hr, hinv.run_lt w i hw hr⟩
  · intro i hi
    rcases hs : s.results i with _ | r
    · rfl
    · have := (hinv.res_content i r hs).1
      omega
  · intro hfinal i hi
    have hW : 0 < min C tasks.length := lt_min (by omega) (by omega)
    have hcur : s.cursor = tasks.length :=
      hinv.done_cursor 0 hW (hfinal 0 hW)
    rcases hinv.cover i (by omega) with hsome | ⟨w₀, hw₀, hrw⟩
    · exact hsome
    · rw [hfinal w₀ hw₀] at hrw
      cases hrw

/-- Witness for C4: on the one-task schedule, the in-flight bound holds in
the final state and slot 0 is settled. -/
theorem runParallel_bounded_exactly_once_witness :
    inFlightCount (min 1 egTasks.length) egS3 ≤ min 1 egTasks.length
    ∧ (egS3.results 0).isSome = true := by
  have h := runParallel_bounded_exactly_once egTasks 1 (by omega) egS3 egReach
  exact ⟨h.1, h.2.2.2.2.2 egS3_done 0 (by decide)⟩

theorem pathJoin_length (dir : FsPath) (n : String) :
    (pathJoin dir n).length = dir.length + 1 := by
  simp [pathJoin]

theorem shouldSkip_false {n : String} (h : shouldSkipDirName n = false) :
    n ≠ ".git" ∧ n ≠ ".cache" := by
  simp only [shouldSkipDirName, Bool.or_eq_false_iff, beq_eq_false_iff_ne] at h
  exact h

theorem classifyFindEntries_shape (dir : FsPath) (depth : Nat)
    (follow : Bool) (entries : List Dirent) :
    (∀ m ∈ (classifyFindEntries dir depth follow entries).1,
      m = pathJoin dir "node_modules")
    ∧ (∀ c ∈ (classifyFindEntries dir depth follow entries).2.1
          ++ (classifyFindEntries dir depth follow entries).2.2,
        ∃ n, c.dir = pathJoin dir n ∧ c.depth = depth + 1
          ∧ n ≠ "node_modules" ∧ n ≠ ".git" ∧ n ≠ ".cache") := by
  induction entries with
  | nil => simp [classifyFindEntries]
  | cons ent rest ih =>
    rcases hrec : classifyFindEntries dir depth follow rest with ⟨nms, subs, syms⟩
    rw [hrec] at ih
    dsimp at ih
    obtain ⟨ih1, ih2⟩ := ih
    simp only [classifyFindEntries, hrec]
    split_ifs with h1 h2 h3 h4 h5 <;> dsimp only
    · exact ⟨ih1, ih2⟩
    · refine ⟨?_, ih2⟩
      intro m hm
      rcases List.mem_cons.mp hm with rfl | hm'
      · rw [h2]
      · exact ih1 m hm'
    · exact ⟨ih1, ih2⟩
    · have h3' := shouldSkip_false (Bool.not_eq_true _ ▸ h3)
      refine ⟨ih1, ?_⟩
      intro c hc
      rcases List.mem_append.mp hc with hc' | hc'
      · rcases List.mem_cons.mp hc' with rfl | hc''
        · exact ⟨ent.name, rfl, rfl, h2, h3'.1, h3'.2⟩
        · exact ih2 c (List.mem_append_left _ hc'')
      · exact ih2 c (List.mem_append_right _ hc')
    · have h3' := shouldSkip_false (Bool.not_eq_true _ ▸ h3)
      refine ⟨ih1, ?_⟩
      intro c hc
      rcases List.mem_append.mp hc with hc' | hc'
      · exact ih2 c (List.mem_append_left _ hc')
      · rcases List.mem_cons.mp hc' with rfl | hc''
        · exact ⟨ent.name, rfl, rfl, h2, h3'.1, h3'.2⟩
        · exact ih2 c (List.mem_append_right _ hc'')
    · exact ⟨ih1, ih2⟩

theorem classifyFindEntries_complete (dir : FsPath) (depth : Nat)
    (follow : Bool) (entries : List Dirent) :
    ∀ e ∈ entries, (e.kind = EntKind.dir ∨ e.kind = EntKind.symlink) →
      e.name = "node_modules" →
      pathJoin dir e.name ∈ (classifyFindEntries dir depth follow entries).1 := by
  induction entries with
  | nil => intro e he; cases he
  | cons ent rest ih =>
    intro e he hkind hname
    rcases hrec : classifyFindEntries dir depth follow rest with ⟨nms, subs, syms⟩
    rw [hrec] at ih
    dsimp at ih ⊢
    rcases List.mem_cons.mp he with rfl | he'
    · have h1 : ¬(e.kind ≠ EntKind.dir ∧ e.kind ≠ EntKind.symlink) := by
        rcases hkind with h | h
        · intro hx; exact hx.1 h
        · intro hx; exact hx.2 h
      simp only [classifyFindEntries, hrec, if_neg h1, if_pos hname]
      exact List.mem_cons_self _ _
    · have hmem := ih e he' hkind hname
      simp only [classifyFindEntries, hrec]
      split_ifs <;> dsimp only
      · exact hmem
      · exact List.mem_cons_of_mem _ hmem
      · exact hmem
      · exact hmem
      · exact hmem
      · exact hmem

theorem resolveSymlinkChecks_subset (fs : Fs) (syms : List NodeT) :
    ∀ c ∈ resolveSymlinkChecks fs syms, c ∈ syms := by
  intro c hc
  obtain ⟨a, ha, hfa⟩ := List.mem_filterMap.mp hc
  rcases hst : fs.stat a.dir with _ | st
  · rw [hst] at hfa; cases hfa
  · rw [hst] at hfa
    dsimp at hfa
    by_cases hd : st.isDir = true
    · rw [if_pos hd] at hfa
      cases hfa
      exact ha
    · rw [if_neg hd] at hfa
      cases hfa

theorem readAndClassify_none (fs : Fs) (follow : Bool) (nd : NodeT)
    (h : fs.readdir nd.dir = none) :
    readAndClassify fs follow nd = ([], []) := by
  simp [readAndClassify, h]

theorem readAndClassify_some (fs : Fs) (follow : Bool) (nd : NodeT)
    (entries : List Dirent) (h : fs.readdir nd.dir = some entries) :
    readAndClassify fs follow nd
      = ((classifyFindEntries nd.dir nd.depth follow entries).1,
         (classifyFindEntries nd.dir nd.depth follow entries).2.1
           ++ resolveSymlinkChecks fs
                (classifyFindEntries nd.dir nd.depth follow entries).2.2) := by
  rcases hc : classifyFindEntries nd.dir nd.depth follow entries with ⟨nms, subs, syms⟩
  simp [readAndClassify, h, hc]

theorem processNode_depth_exceeded (fs : Fs) (follow : Bool)
    (md : Option Nat) (seen : List FsPath) (nd : NodeT)
    (h : depthExceeded md nd.depth = true) :
    processNode fs follow md seen nd = ([], [], seen) := by
  simp [processNode, h]

theorem processNode_realpath_none (fs : Fs) (md : Option Nat)
    (seen : List FsPath) (nd : NodeT)
    (hd : depthExceeded md nd.depth = false)
    (hrp : fs.realpath nd.dir = none) :
    processNode fs true md seen nd = ([], [], seen) := by
  simp [processNode, hd, hrp]

theorem processNode_prune (fs : Fs) (md : Option Nat) (seen : List FsPath)
    (nd : NodeT) (r : FsPath) (hrp : fs.realpath nd.dir = some r)
    (hmem : r ∈ seen) :
    processNode fs true md seen nd = ([], [], seen) := by
  rcases hd : depthExceeded md nd.depth with _ | _
  · simp [processNode, hd, hrp, hmem]
  · simp [processNode, hd]

theorem processNode_run_false (fs : Fs) (md : Option Nat)
    (seen : List FsPath) (nd : NodeT)
    (hd : depthExceeded md nd.depth = false) :
    processNode fs false md seen nd
      = ((readAndClassify fs false nd).1,
         (readAndClassify fs false nd).2, seen) := by
  rcases hra : readAndClassify fs false nd with ⟨nms, subs⟩
  simp [processNode, hd, hra]

theorem processNode_run_true (fs : Fs) (md : Option Nat)
    (seen : List FsPath) (nd : NodeT) (r : FsPath)
    (hd : depthExceeded md nd.depth = false)
    (hrp : fs.realpath nd.dir = some r) (hmem : r ∉ seen) :
    processNode fs true md seen nd
      = ((readAndClassify fs true nd).1,
         (readAndClassify fs true nd).2, r :: seen) := by
  rcases hra : readAndClassify fs true nd with ⟨nms, subs⟩
  simp [processNode, hd, hrp, hmem, hra]

theorem readAndClassify_shape (fs : Fs) (follow : Bool) (nd : NodeT) :
    (∀ m ∈ (readAndClassify fs follow nd).1,
      m = pathJoin nd.dir "node_modules")
    ∧ (∀ c ∈ (readAndClassify fs follow nd).2,
        ∃ n, c.dir = pathJoin nd.dir n ∧ c.depth = nd.depth + 1
          ∧ n ≠ "node_modules" ∧ n ≠ ".git" ∧ n ≠ ".cache") := by
  rcases hrd : fs.readdir nd.dir with _ | entries
  · rw [readAndClassify_none fs follow nd hrd]
    exact ⟨(by intro m hm; cases hm), (by intro c hc; cases hc)⟩
  · rw [readAndClassify_some fs follow nd entries hrd]
    obtain ⟨hs1, hs2⟩ := classifyFindEntries_shape nd.dir nd.depth follow entries
    refine ⟨hs1, ?_⟩
    intro c hc
    rcases List.mem_append.mp hc with hc' | hc'
    · exact hs2 c (List.mem_append_left _ hc')
    · exact hs2 c
        (List.mem_append_right _ (resolveSymlinkChecks_subset fs _ c hc'))

theorem processNode_shape (fs : Fs) (follow : Bool) (md : Option Nat)
    (seen : List FsPath) (nd : NodeT) :
    (∀ m ∈ (processNode fs follow md seen nd).1,
      m = pathJoin nd.dir "node_modules")
    ∧ (∀ c ∈ (processNode fs follow md seen nd).2.1,
        ∃ n, c.dir = pathJoin nd.dir n ∧ c.depth = nd.depth + 1
          ∧ n ≠ "node_modules" ∧ n ≠ ".git" ∧ n ≠ ".cache") := by
  obtain ⟨hr1, hr2⟩ := readAndClassify_shape fs follow nd
  rcases hd : depthExceeded md nd.depth with _ | _
  · cases follow with
    | false =>
      rw [processNode_run_false fs md seen nd hd]
      exact ⟨hr1, hr2⟩
    | true =>
      rcases hrp : fs.realpath nd.dir with _ | r
      · rw [processNode_realpath_none fs md seen nd hd hrp]
        exact ⟨(by intro m hm; cases hm), (by intro c hc; cases hc)⟩
      · by_cases hmem : r ∈ seen
        · rw [processNode_prune fs md seen nd r hrp hmem]
          exact ⟨(by intro m hm; cases hm), (by intro c hc; cases hc)⟩
        · rw [processNode_run_true fs md seen nd r hd hrp hmem]
          exact ⟨hr1, hr2⟩
  · rw [processNode_depth_exceeded fs follow md seen nd hd]
    exact ⟨(by intro m hm; cases hm), (by intro c hc; cases hc)⟩

theorem processNode_seen_cases (fs : Fs) (md : Option Nat)
    (seen : List FsPath) (nd : NodeT) :
    ((processNode fs true md seen nd).2.2 = seen
      ∧ (processNode fs true md seen nd).2.1 = [])
    ∨ (∃ r, fs.realpath nd.dir = some r ∧ r ∉ seen
        ∧ (processNode fs true md seen nd).2.2 = r :: seen) := by
  rcases hd : depthExceeded md nd.depth with _ | _
  · rcases hrp : fs.realpath nd.dir with _ | r
    · rw [processNode_realpath_none fs md seen nd hd hrp]
      exact Or.inl ⟨rfl, rfl⟩
    · by_cases hmem : r ∈ seen
      · rw [processNode_prune fs md seen nd r hrp hmem]
        exact Or.inl ⟨rfl, rfl⟩
      · rw [processNode_run_true fs md seen nd r hd hrp hmem]
        exact Or.inr ⟨r, rfl, hmem, rfl⟩
  · rw [processNode_depth_exceeded fs true md seen nd hd]
    exact Or.inl ⟨rfl, rfl⟩

theorem processNode_seen_false (fs : Fs) (md : Option Nat)
    (seen : List FsPath) (nd : NodeT) :
    (processNode fs false md seen nd).2.2 = seen := by
  rcases hd : depthExceeded md nd.depth with _ | _
  · rw [processNode_run_false fs md seen nd hd]
  · rw [processNode_depth_exceeded fs false md seen nd hd]

theorem levelStep_length (fs : Fs) (follow : Bool) (md : Option Nat)
    (L : Nat) :
    ∀ level seen, (∀ nd ∈ level, L ≤ nd.dir.length) →
      (∀ m ∈ (levelStep fs follow md level seen).1, L + 1 ≤ m.length)
      ∧ (∀ c ∈ (levelStep fs follow md level seen).2.1,
          L + 1 ≤ c.dir.length) := by
  intro level
  induction level with
  | nil =>
    intro seen _
    exact ⟨(by intro m hm; cases hm), (by intro c hc; cases hc)⟩
  | cons nd rest ih =>
    intro seen hlev
    rcases hpn : processNode fs follow md seen nd with ⟨nms, subs, seen1⟩
    rcases hls : levelStep fs follow md rest seen1 with ⟨nms', subs', seen2⟩
    have hnd : L ≤ nd.dir.length := hlev nd (List.mem_cons_self _ _)
    obtain ⟨hsh1, hsh2⟩ := processNode_shape fs follow md seen nd
    rw [hpn] at hsh1 hsh2
    dsimp at hsh1 hsh2
    obtain ⟨ih1, ih2⟩ := ih seen1 (fun x hx => hlev x (List.mem_cons_of_mem _ hx))
    rw [hls] at ih1 ih2
    dsimp at ih1 ih2
    simp only [levelStep, hpn, hls]
    constructor
    · intro m hm
      rcases List.mem_append.mp hm with hm' | hm'
      · rw [hsh1 m hm', pathJoin_length]
        omega
      · exact ih1 m hm'
    · intro c hc
      rcases List.mem_append.mp hc with hc' | hc'
      · obtain ⟨n, hn, _, _, _, _⟩ := hsh2 c hc'
        rw [hn, pathJoin_length]
        omega
      · exact ih2 c hc'

theorem findNMAux_nil (fs : Fs) (follow : Bool) (md : Option Nat)
    (fuel : Nat) (seen : List FsPath) (acc : List FsPath) :
    findNMAux fs follow md fuel seen [] acc = some acc := by
  cases fuel <;> simp [findNMAux]

theorem findNMAux_length (fs : Fs) (follow : Bool) (md : Option Nat)
    (L : Nat) :
    ∀ fuel seen level acc res,
      (∀ nd ∈ level, L ≤ nd.dir.length) →
      (∀ m ∈ acc, L + 1 ≤ m.length) →
      findNMAux fs follow md fuel seen level acc = some res →
      ∀ m ∈ res, L + 1 ≤ m.length := by
  intro fuel
  induction fuel with
  | zero =>
    intro seen level acc res _ hacc h
    simp only [findNMAux] at h
    split at h
    · cases h
      exact hacc
    · cases h
  | succ fuel ih =>
    intro seen level acc res hlev hacc h
    simp only [findNMAux] at h
    split at h
    · cases h
      exact hacc
    · rcases hls : levelStep fs follow md level seen with ⟨nms, next, seen'⟩
      rw [hls] at h
      dsimp at h
      obtain ⟨hm1, hm2⟩ := levelStep_length fs follow md L level seen hlev
      rw [hls] at hm1 hm2
      dsimp at hm1 hm2
      refine ih seen' next (acc ++ nms) res ?_ ?_ h
      · intro nd hnd
        have := hm2 nd hnd
        omega
      · intro m hm
        rcases List.mem_append.mp hm with hm' | hm'
        · exact hacc m hm'
        · exact hm1 m hm'

/-- C2 counterexample: with the root itself named `node_modules`
(`a/node_modules` holding `inner/node_modules`), the locator does not
report the root; it descends into it and reports the deeper
`a/node_modules/inner/node_modules` instead — so the root is neither
"reported as a match" nor left undescended. -/
theorem locator_root_named_nm_counterexample :
    findNodeModules fsRootNM false none ["a", "node_modules"] 10
      = some [["a", "node_modules", "inner", "node_modules"]]
    ∧ ["a", "node_modules"] ∉ [["a", "node_modules", "inner", "node_modules"]] := by
  constructor
  · rfl
  · decide

/-- C2 amended: the locator never examines the root's own name — in any run
that completes, the root path itself is never among the matches (every
match is a child entry of some scanned directory, hence strictly longer
than the root), and a root named `node_modules` is scanned like any other
root, as the concrete evaluation shows. -/
theorem locator_root_not_special (fs : Fs) (follow : Bool)
    (md : Option Nat) (root : FsPath) (fuel : Nat) (res : List FsPath)
    (h : findNodeModules fs follow md root fuel = some res) :
    root ∉ res
    ∧ findNodeModules fsRootNM false none ["a", "node_modules"] 10
        = some [["a", "node_modules", "inner", "node_modules"]] := by
  constructor
  · intro hmem
    have hlen := findNMAux_length fs follow md root.length fuel []
      [⟨root, 0⟩] [] res ?_ ?_ h root hmem
    · omega
    · intro nd hnd
      rcases List.mem_cons.mp hnd with rfl | hnd'
      · exact Nat.le_refl _
      · cases hnd'
    · intro m hm
      cases hm
  · rfl

/-- Witness for C2's amended theorem at the concrete root-named-
`node_modules` run. -/
theorem locator_root_not_special_witness :
    ["a", "node_modules"] ∉ [["a", "node_modules", "inner", "node_modules"]] :=
  (locator_root_not_special fsRootNM false none ["a", "node_modules"] 10
    [["a", "node_modules", "inner", "node_modules"]] rfl).1

/-- C3 counterexample: on the tree whose only `node_modules` sits at depth
2 (`r/a/node_modules`), maximum depth 1 does NOT report zero matches — the
depth-1 directory `a` is still scanned and its `node_modules` entry
reported. -/
theorem locator_depth_limit_counterexample :
    findNodeModules fsDepth2 false (some 1) ["r"] 10
      = some [["r", "a", "node_modules"]]
    ∧ some [["r", "a", "node_modules"]] ≠ (some [] : Option (List FsPath)) := by
  constructor
  · rfl
  · decide

/-- C3 amended: the depth guard `depth > maxDepth` skips a node but not its
parent's listing, so a match at depth d is reported whenever maxDepth ≥
d - 1: on the depth-2 tree, maximum depth 0 reports zero matches, while
maximum depths 1 and 2 both report the match. -/
theorem locator_depth_limit_amended :
    findNodeModules fsDepth2 false (some 0) ["r"] 10 = some []
    ∧ findNodeModules fsDepth2 false (some 1) ["r"] 10
        = some [["r", "a", "node_modules"]]
    ∧ findNodeModules fsDepth2 false (some 2) ["r"] 10
        = some [["r", "a", "node_modules"]] := by
  exact ⟨rfl, rfl, rfl⟩

/-- C5: in any locator task that passes its guards and lists entries,
every directory-or-symlink entry named exactly `node_modules` is recorded
as a match; every recorded match is such an entry's path; and no enqueued
subdirectory is named `node_modules`, `.git`, or `.cache` (so matches and
ignored names are never traversed).  Hence the tree with
`a/node_modules/node_modules/x` yields exactly the single match
`a/node_modules`, and the tree with `a/.git/node_modules` yields zero
matches. -/
theorem locator_match_and_prune (fs : Fs) (follow : Bool) (md : Option Nat)
    (seen : List FsPath) (nd : NodeT) (entries : List Dirent)
    (hd : depthExceeded md nd.depth = false)
    (hguard : follow = false
      ∨ ∃ r, fs.realpath nd.dir = some r ∧ r ∉ seen)
    (hrd : fs.readdir nd.dir = some entries) :
    (∀ e ∈ entries, (e.kind = EntKind.dir ∨ e.kind = EntKind.symlink) →
      e.name = "node_modules" →
      pathJoin nd.dir e.name ∈ (processNode fs follow md seen nd).1)
    ∧ (∀ m ∈ (processNode fs follow md seen nd).1,
        m = pathJoin nd.dir "node_modules")
    ∧ (∀ c ∈ (processNode fs follow md seen nd).2.1,
        ∃ n, c.dir = pathJoin nd.dir n ∧ n ≠ "node_modules"
          ∧ n ≠ ".git" ∧ n ≠ ".cache")
    ∧ findNodeModules fsNested false none ["r"] 10
        = some [["r", "a", "node_modules"]]
    ∧ findNodeModules fsGit false none ["r"] 10 = some [] := by
  have hmain : (processNode fs follow md seen nd).1
        = (readAndClassify fs follow nd).1
      ∧ (processNode fs follow md seen nd).2.1
        = (readAndClassify fs follow nd).2 := by
    rcases hguard with rfl | ⟨r, hrp, hmem⟩
    · rw [processNode_run_false fs md seen nd hd]
      exact ⟨rfl, rfl⟩
    · cases follow with
      | false =>
        rw [processNode_run_false fs md seen nd hd]
        exact ⟨rfl, rfl⟩
      | true =>
        rw [processNode_run_true fs md seen nd r hd hrp hmem]
        exact ⟨rfl, rfl⟩
  obtain ⟨hm1, hm2⟩ := hmain
  rw [readAndClassify_some fs follow nd entries hrd] at hm1 hm2
  dsimp at hm1 hm2
  obtain ⟨hsh1, hsh2⟩ := processNode_shape fs follow md seen nd
  refine ⟨?_, hsh1, ?_, rfl, rfl⟩
  · intro e he hkind hname
    rw [hm1]
    exact classifyFindEntries_complete nd.dir nd.depth follow entries
      e he hkind hname
  · intro c hc
    obtain ⟨n, hn, _, h1, h2, h3⟩ := hsh2 c hc
    exact ⟨n, hn, h1, h2, h3⟩

/-- Witness for C5 at the `r/a` node of the nested tree: its
`node_modules` entry is recorded as a match. -/
theorem locator_match_and_prune_witness :
    pathJoin ["r", "a"] "node_modules"
      ∈ (processNode fsNested false none [] ⟨["r", "a"], 1⟩).1 :=
  (locator_match_and_prune fsNested false none [] ⟨["r", "a"], 1⟩
      [⟨"node_modules", EntKind.dir⟩] rfl (Or.inl rfl) rfl).1
    ⟨"node_modules", EntKind.dir⟩ (List.mem_cons_self _ _)
    (Or.inl rfl) rfl

theorem levelStep_seen (fs : Fs) (md : Option Nat) (R : List FsPath)
    (hR : ∀ p r, fs.realpath p = some r → r ∈ R) :
    ∀ level seen, seen.Nodup → (∀ x ∈ seen, x ∈ R) →
      ((levelStep fs true md level seen).2.2).Nodup
      ∧ (∀ x ∈ (levelStep fs true md level seen).2.2, x ∈ R)
      ∧ seen.length ≤ ((levelStep fs true md level seen).2.2).length
      ∧ ((levelStep fs true md level seen).2.1 ≠ [] →
          seen.length < ((levelStep fs true md level seen).2.2).length) := by
  intro level
  induction level with
  | nil =>
    intro seen hnd hsub
    refine ⟨hnd, hsub, Nat.le_refl _, ?_⟩
    intro hne
    exact absurd rfl hne
  | cons nd rest ih =>
    intro seen hnd hsub
    rcases hpn : processNode fs true md seen nd with ⟨nms, subs, seen1⟩
    rcases hls : levelStep fs true md rest seen1 with ⟨nms', subs', seen2⟩
    have hcase := processNode_seen_cases fs md seen nd
    rw [hpn] at hcase
    dsimp at hcase
    simp only [levelStep, hpn, hls]
    rcases hcase with ⟨hse, hsubs⟩ | ⟨r, hrp, hrs, hse⟩
    · subst hse
      obtain ⟨ihnd, ihsub, ihle, ihlt⟩ := ih seen1 hnd hsub
      rw [hls] at ihnd ihsub ihle ihlt
      dsimp at ihnd ihsub ihle ihlt
      refine ⟨ihnd, ihsub, ihle, ?_⟩
      intro hne
      subst hsubs
      simp only [List.nil_append] at hne
      exact ihlt hne
    · subst hse
      have hnd1 : (r :: seen).Nodup := List.nodup_cons.mpr ⟨hrs, hnd⟩
      have hsub1 : ∀ x ∈ r :: seen, x ∈ R := by
        intro x hx
        rcases List.mem_cons.mp hx with rfl | hx'
        · exact hR nd.dir x hrp
        · exact hsub x hx'
      obtain ⟨ihnd, ihsub, ihle, _⟩ := ih (r :: seen) hnd1 hsub1
      rw [hls] at ihnd ihsub ihle
      dsimp at ihnd ihsub ihle
      have hlt : seen.length < seen2.length := by
        have : (r :: seen).length = seen.length + 1 := rfl
        omega
      exact ⟨ihnd, ihsub, by omega, fun _ => hlt⟩

theorem findNMAux_total (fs : Fs) (md : Option Nat) (R : List FsPath)
    (hR : ∀ p r, fs.realpath p = some r → r ∈ R) :
    ∀ fuel seen level acc, seen.Nodup → (∀ x ∈ seen, x ∈ R) →
      R.length + 1 ≤ fuel + seen.length →
      ∃ res, findNMAux fs true md fuel seen level acc = some res := by
  intro fuel
  induction fuel with
  | zero =>
    intro seen level acc hnd hsub hlen
    have hle : seen.length ≤ R.length :=
      (List.Nodup.subperm hnd (fun x hx => hsub x hx)).length_le
    omega
  | succ fuel ih =>
    intro seen level acc hnd hsub hlen
    by_cases hlev : level = []
    · subst hlev
      exact ⟨acc, findNMAux_nil fs true md (fuel + 1) seen acc⟩
    · rcases hls : levelStep fs true md level seen with ⟨nms, next, seen'⟩
      obtain ⟨hnd', hsub', hle, hlt⟩ := levelStep_seen fs md R hR level seen hnd hsub
      rw [hls] at hnd' hsub' hle hlt
      dsimp at hnd' hsub' hle hlt
      by_cases hnext : next = []
      · subst hnext
        refine ⟨acc ++ nms, ?_⟩
        simp only [findNMAux, if_neg hlev, hls]
        exact findNMAux_nil fs true md fuel seen' (acc ++ nms)
      · have hstrict := hlt hnext
        obtain ⟨res, hres⟩ := ih seen' next (acc ++ nms) hnd' hsub' (by omega)
        refine ⟨res, ?_⟩
        simp only [findNMAux, if_neg hlev, hls]
        exact hres

/-- C6: with follow-symlinks enabled the locator terminates on every
filesystem whose canonical real paths range over a finite set `R` — fuel
`|R| + 1` always suffices for the frontier to empty, because a level that
produces a next frontier must have recorded a fresh real path; a frontier
node whose real path is already in the visited set contributes no matches
and no subdirectories; and on the concrete ancestor-cycle filesystem
(`r/a/loop → r`) the single match `r/a/node_modules` is reported exactly
once, not duplicated through the cycle. -/
theorem findNodeModules_cycle_safe (fs : Fs) (md : Option Nat)
    (root : FsPath) (R : List FsPath)
    (hR : ∀ p r, fs.realpath p = some r → r ∈ R) :
    (∀ fuel, R.length + 1 ≤ fuel →
      ∃ res, findNodeModules fs true md root fuel = some res)
    ∧ (∀ seen nd r, fs.realpath nd.dir = some r → r ∈ seen →
        processNode fs true md seen nd = ([], [], seen))
    ∧ findNodeModules fsCycle true none ["r"] 10
        = some [["r", "a", "node_modules"]] := by
  refine ⟨?_, ?_, rfl⟩
  · intro fuel hfuel
    exact findNMAux_total fs md R hR fuel [] [⟨root, 0⟩] []
      List.nodup_nil (by intro x hx; cases hx) (by omega)
  · intro seen nd r hrp hmem
    exact processNode_prune fs md seen nd r hrp hmem

/-- Witness for C6 on the concrete cycle filesystem: its realpaths all lie
in the two-element list `fsCycleReals`, so fuel 3 completes the walk. -/
theorem findNodeModules_cycle_safe_witness :
    ∃ res, findNodeModules fsCycle true none ["r"] 3 = some res := by
  have hR : ∀ p r, fsCycle.realpath p = some r → r ∈ fsCycleReals := by
    intro p r h
    simp only [fsCycle] at h
    split_ifs at h
    all_goals
      first
        | exact Option.noConfusion h
        | (injection h with h; subst h; decide)
  exact (findNodeModules_cycle_safe fsCycle none ["r"] fsCycleReals hR).1
    3 (by decide)

theorem accumStatResults_append (xs ys : List (Option StatRes)) :
    accumStatResults (xs ++ ys)
      = ((accumStatResults xs).1 + (accumStatResults ys).1,
         (accumStatResults xs).2 ++ (accumStatResults ys).2) := by
  induction xs with
  | nil => simp [accumStatResults]
  | cons x rest ih =>
    cases x with
    | none =>
      simpa [accumStatResults] using ih
    | some r =>
      rcases hx : accumStatResults rest with ⟨szx, dirsx⟩
      rcases hy : accumStatResults ys with ⟨szy, dirsy⟩
      rw [hx, hy] at ih
      have lhs : accumStatResults (some r :: (rest ++ ys))
          = ((if r.isFile then r.size else 0) + (szx + szy),
             (if r.isDir then [r.full] else []) ++ (dirsx ++ dirsy)) := by
        simp only [accumStatResults, ih]
      have rhs : accumStatResults (some r :: rest)
          = ((if r.isFile then r.size else 0) + szx,
             (if r.isDir then [r.full] else []) ++ dirsx) := by
        simp only [accumStatResults, hx]
      rw [List.cons_append, lhs, rhs]
      refine Prod.ext ?_ ?_
      · dsimp
        omega
      · dsimp
        rw [List.append_assoc]

theorem statsFlatten_acc (fs : Fs) (follow : Bool) :
    ∀ pending : List FsPath,
      accumStatResults
        ((((pending.map (fun dir =>
            classifySizeEntries follow dir ((fs.readdir dir).getD []))).map
          Prod.snd).flatten).map (runStatTask fs))
        = ((pending.map (perDirAdded fs follow)).sum,
           (pending.map (perDirSymDirs fs follow)).flatten) := by
  intro pending
  induction pending with
  | nil => simp [accumStatResults]
  | cons p rest ih =>
    simp only [List.map_cons, List.flatten_cons, List.map_append,
      accumStatResults_append, ih, List.sum_cons]
    rfl

theorem sizeLevelStep_eq (fs : Fs) (follow : Bool) (pending : List FsPath) :
    sizeLevelStep fs follow pending
      = ((pending.map (perDirAdded fs follow)).sum,
         (pending.map (perDirDirs fs follow)).flatten
           ++ (pending.map (perDirSymDirs fs follow)).flatten) := by
  unfold sizeLevelStep
  dsimp only
  rw [statsFlatten_acc, List.map_map]
  rfl

theorem pathsSize_nil (t : FsTree) : pathsSize t [] = 0 := rfl

theorem pathsSize_cons (t : FsTree) (p : FsPath) (ps : List FsPath) :
    pathsSize t (p :: ps)
      = treeSize ((subtreeAt t p).getD (FsTree.file 0)) + pathsSize t ps := by
  simp [pathsSize]

theorem pathsSize_append (t : FsTree) (xs ys : List FsPath) :
    pathsSize t (xs ++ ys) = pathsSize t xs + pathsSize t ys := by
  simp [pathsSize, List.sum_append]

theorem subtreeAt_append (t : FsTree) (p : FsPath) (n : String) :
    subtreeAt t (p ++ [n])
      = match subtreeAt t p with
        | some (FsTree.dir es) => lookupChild es n
        | _ => none := by
  induction p generalizing t with
  | nil =>
    cases t with
    | file s => rfl
    | dir es =>
      simp only [List.nil_append, subtreeAt]
      rcases lookupChild es n with _ | c
      · rfl
      · rfl
  | cons m rest ih =>
    cases t with
    | file s => rfl
    | dir es =>
      simp only [List.cons_append, subtreeAt]
      rcases lookupChild es m with _ | c
      · rfl
      · exact ih c

theorem lookupChild_wf (es : List (String × FsTree)) (n : String)
    (c : FsTree) (hwf : treeWFList es = true)
    (h : lookupChild es n = some c) : treeWF c = true := by
  induction es with
  | nil => cases h
  | cons e rest ih =>
    simp only [treeWFList, Bool.and_eq_true] at hwf
    simp only [lookupChild] at h
    by_cases he : e.1 = n
    · rw [if_pos he] at h
      cases h
      exact hwf.1
    · rw [if_neg he] at h
      exact ih hwf.2 h

theorem treeWF_subtreeAt (t : FsTree) (p : FsPath) (u : FsTree)
    (hwf : treeWF t = true) (h : subtreeAt t p = some u) :
    treeWF u = true := by
  induction p generalizing t with
  | nil =>
    cases t <;> (simp only [subtreeAt] at h; cases h; exact hwf)
  | cons m rest ih =>
    cases t with
    | file s => cases h
    | dir es =>
      simp only [subtreeAt] at h
      rcases hlk : lookupChild es m with _ | c
      · rw [hlk] at h
        cases h
      · rw [hlk] at h
        simp only [treeWF, Bool.and_eq_true] at hwf
        exact ih c (lookupChild_wf es m c hwf.2 hlk) h

theorem lookupChild_of_mem (es : List (String × FsTree)) (n : String)
    (c : FsTree) (hnd : (es.map Prod.fst).Nodup) (hmem : (n, c) ∈ es) :
    lookupChild es n = some c := by
  induction es with
  | nil => cases hmem
  | cons e rest ih =>
    simp only [List.map_cons, List.nodup_cons] at hnd
    rcases List.mem_cons.mp hmem with rfl | hmem'
    · simp [lookupChild]
    · have hne : e.1 ≠ n := by
        intro he
        exact hnd.1 (he ▸ List.mem_map_of_mem Prod.fst hmem')
      simp only [lookupChild, if_neg hne]
      exact ih hnd.2 hmem'

theorem subtreeAt_child (t : FsTree) (p : FsPath)
    (es : List (String × FsTree)) (n : String) (c : FsTree)
    (hwf : treeWF t = true) (hp : subtreeAt t p = some (FsTree.dir es))
    (hmem : (n, c) ∈ es) : subtreeAt t (pathJoin p n) = some c := by
  have hwfd : treeWF (FsTree.dir es) = true := treeWF_subtreeAt t p _ hwf hp
  simp only [treeWF, Bool.and_eq_true, decide_eq_true_eq] at hwfd
  have := subtreeAt_append t p n
  rw [hp] at this
  dsimp at this
  rw [pathJoin, this]
  exact lookupChild_of_mem es n c hwfd.1 hmem

theorem fsOfTree_readdir (t : FsTree) (p : FsPath)
    (es : List (String × FsTree))
    (h : subtreeAt t p = some (FsTree.dir es)) :
    (fsOfTree t).readdir p = some (treeDirents es) := by
  simp [fsOfTree, treeDirents, h]

theorem fsOfTree_lstat_file (t : FsTree) (p : FsPath) (s : Nat)
    (h : subtreeAt t p = some (FsTree.file s)) :
    (fsOfTree t).lstat p = some ⟨false, true, s⟩ := by
  simp [fsOfTree, h]

theorem treeDirents_cons (e : String × FsTree)
    (es : List (String × FsTree)) :
    treeDirents (e :: es) = ⟨e.1, treeKind e.2⟩ :: treeDirents es := rfl

theorem classifySize_tree (t : FsTree) (p : FsPath) :
    ∀ es : List (String × FsTree),
      (∀ n c, (n, c) ∈ es → subtreeAt t (pathJoin p n) = some c) →
      (accumStatResults
          (((classifySizeEntries false p (treeDirents es)).2).map
            (runStatTask (fsOfTree t)))).1 = entriesFileSum es
      ∧ (accumStatResults
          (((classifySizeEntries false p (treeDirents es)).2).map
            (runStatTask (fsOfTree t)))).2 = []
      ∧ entriesFileSum es
          + pathsSize t (classifySizeEntries false p (treeDirents es)).1
        = treeSizeList es
      ∧ ∀ q ∈ (classifySizeEntries false p (treeDirents es)).1,
          ∃ es', subtreeAt t q = some (FsTree.dir es')
            ∧ treeHeight (FsTree.dir es') ≤ treeHeightList es := by
  intro es
  induction es with
  | nil =>
    intro _
    refine ⟨rfl, rfl, rfl, ?_⟩
    intro q hq
    cases hq
  | cons e rest ih =>
    intro hmem
    obtain ⟨n, c⟩ := e
    have hmem' : ∀ n' c', (n', c') ∈ rest →
        subtreeAt t (pathJoin p n') = some c' :=
      fun n' c' h => hmem n' c' (List.mem_cons_of_mem _ h)
    obtain ⟨ih1, ih2, ih3, ih4⟩ := ih hmem'
    have hc : subtreeAt t (pathJoin p n) = some c :=
      hmem n c (List.mem_cons_self _ _)
    rcases hrec : classifySizeEntries false p (treeDirents rest) with ⟨ds, sts⟩
    rw [hrec] at ih1 ih2 ih3 ih4
    dsimp at ih1 ih2 ih3 ih4
    cases c with
    | file s =>
      have hcl : classifySizeEntries false p (treeDirents ((n, FsTree.file s) :: rest))
          = (ds, StatTask.file (pathJoin p n) :: sts) := by
        rw [treeDirents_cons]
        simp only [classifySizeEntries, treeKind, hrec]
      have hrun : runStatTask (fsOfTree t) (StatTask.file (pathJoin p n))
          = some ⟨false, true, s, pathJoin p n⟩ := by
        simp [runStatTask, fsOfTree_lstat_file t _ s hc]
      rw [hcl]
      dsimp only
      rcases hac : accumStatResults (sts.map (runStatTask (fsOfTree t)))
        with ⟨av, ad⟩
      rw [hac] at ih1 ih2
      dsimp at ih1 ih2
      have hacc : accumStatResults
          ((StatTask.file (pathJoin p n) :: sts).map (runStatTask (fsOfTree t)))
          = (s + av, ad) := by
        simp only [List.map_cons, hrun, accumStatResults, hac]
        rfl
      rw [hacc]
      refine ⟨?_, ?_, ?_, ?_⟩
      · simp only [entriesFileSum, ih1]
      · simpa using ih2
      · simp only [entriesFileSum, treeSizeList, treeSize]
        omega
      · intro q hq
        obtain ⟨es', hs', hh'⟩ := ih4 q hq
        refine ⟨es', hs', ?_⟩
        simp only [treeHeightList]
        exact le_trans hh' (le_max_right _ _)
    | dir es2 =>
      have hcl : classifySizeEntries false p (treeDirents ((n, FsTree.dir es2) :: rest))
          = (pathJoin p n :: ds, sts) := by
        rw [treeDirents_cons]
        simp only [classifySizeEntries, treeKind, hrec]
      rw [hcl]
      dsimp only
      refine ⟨ih1, ih2, ?_, ?_⟩
      · rw [pathsSize_cons, hc]
        simp only [Option.getD_some, entriesFileSum, treeSizeList]
        omega
      · intro q hq
        rcases List.mem_cons.mp hq with rfl | hq'
        · refine ⟨es2, hc, ?_⟩
          simp only [treeHeightList]
          exact le_max_left _ _
        · obtain ⟨es', hs', hh'⟩ := ih4 q hq'
          refine ⟨es', hs', ?_⟩
          simp only [treeHeightList]
          exact le_trans hh' (le_max_right _ _)

theorem perDir_tree (t : FsTree) (hwf : treeWF t = true) (p : FsPath)
    (es : List (String × FsTree))
    (hsub : subtreeAt t p = some (FsTree.dir es)) :
    perDirAdded (fsOfTree t) false p = entriesFileSum es
    ∧ perDirSymDirs (fsOfTree t) false p = []
    ∧ perDirAdded (fsOfTree t) false p
        + pathsSize t (perDirDirs (fsOfTree t) false p)
      = treeSize (FsTree.dir es)
    ∧ ∀ q ∈ perDirDirs (fsOfTree t) false p,
        ∃ es', subtreeAt t q = some (FsTree.dir es')
          ∧ treeHeight (FsTree.dir es') + 1 ≤ treeHeight (FsTree.dir es) := by
  have hmem : ∀ n c, (n, c) ∈ es → subtreeAt t (pathJoin p n) = some c :=
    fun n c h => subtreeAt_child t p es n c hwf hsub h
  obtain ⟨h1, h2, h3, h4⟩ := classifySize_tree t p es hmem
  have hrd : ((fsOfTree t).readdir p).getD [] = treeDirents es := by
    rw [fsOfTree_readdir t p es hsub]
    rfl
  have e1 : perDirAdded (fsOfTree t) false p = entriesFileSum es := by
    rw [perDirAdded, perDirStats, hrd]
    exact h1
  have e2 : perDirSymDirs (fsOfTree t) false p = [] := by
    rw [perDirSymDirs, perDirStats, hrd]
    exact h2
  have e3 : perDirDirs (fsOfTree t) false p
      = (classifySizeEntries false p (treeDirents es)).1 := by
    rw [perDirDirs, hrd]
  refine ⟨e1, e2, ?_, ?_⟩
  · rw [e1, e3]
    have : treeSize (FsTree.dir es) = treeSizeList es := rfl
    omega
  · intro q hq
    rw [e3] at hq
    obtain ⟨es', hs', hh'⟩ := h4 q hq
    refine ⟨es', hs', ?_⟩
    have : treeHeight (FsTree.dir es) = treeHeightList es + 1 := rfl
    omega

theorem sizeLevel_tree (t : FsTree) (hwf : treeWF t = true) (h : Nat) :
    ∀ pending : List FsPath,
      (∀ p ∈ pending, ∃ es, subtreeAt t p = some (FsTree.dir es)
        ∧ treeHeight (FsTree.dir es) ≤ h + 1) →
      (sizeLevelStep (fsOfTree t) false pending).1
          + pathsSize t (sizeLevelStep (fsOfTree t) false pending).2
        = pathsSize t pending
      ∧ ∀ q ∈ (sizeLevelStep (fsOfTree t) false pending).2,
          ∃ es', subtreeAt t q = some (FsTree.dir es')
            ∧ treeHeight (FsTree.dir es') ≤ h := by
  intro pending
  induction pending with
  | nil =>
    intro _
    rw [sizeLevelStep_eq]
    exact ⟨rfl, (by intro q hq; cases hq)⟩
  | cons p rest ih =>
    intro hp
    obtain ⟨es, hsub, hht⟩ := hp p (List.mem_cons_self _ _)
    obtain ⟨ihs, ihm⟩ := ih (fun x hx => hp x (List.mem_cons_of_mem _ hx))
    rw [sizeLevelStep_eq] at ihs ihm ⊢
    dsimp only at ihs ihm ⊢
    obtain ⟨e1, e2, e3, e4⟩ := perDir_tree t hwf p es hsub
    simp only [List.map_cons, List.flatten_cons, List.sum_cons, e2,
      List.nil_append] at *
    constructor
    · simp only [pathsSize_append] at ihs ⊢
      rw [pathsSize_cons, hsub]
      dsimp only [Option.getD_some]
      omega
    · intro q hq
      rw [List.mem_append, List.mem_append] at hq
      rcases hq with (hq | hq) | hq
      · obtain ⟨es', hs', hh'⟩ := e4 q hq
        exact ⟨es', hs', by omega⟩
      · obtain ⟨es', hs', hh'⟩ := ihm q (List.mem_append_left _ hq)
        exact ⟨es', hs', hh'⟩
      · obtain ⟨es', hs', hh'⟩ := ihm q (List.mem_append_right _ hq)
        exact ⟨es', hs', hh'⟩

theorem getDirSizeAux_nil (fs : Fs) (follow : Bool) (fuel total : Nat) :
    getDirSizeAux fs follow fuel [] total = some total := by
  cases fuel <;> simp [getDirSizeAux]

theorem getDirSizeAux_tree (t : FsTree) (hwf : treeWF t = true) :
    ∀ h pending total,
      (∀ p ∈ pending, ∃ es, subtreeAt t p = some (FsTree.dir es)
        ∧ treeHeight (FsTree.dir es) ≤ h) →
      getDirSizeAux (fsOfTree t) false h pending total
        = some (total + pathsSize t pending) := by
  intro h
  induction h with
  | zero =>
    intro pending total hp
    have hpe : pending = [] := by
      cases pending with
      | nil => rfl
      | cons p rest =>
        obtain ⟨es, _, hh⟩ := hp p (List.mem_cons_self _ _)
        have : treeHeight (FsTree.dir es) = treeHeightList es + 1 := rfl
        omega
    subst hpe
    simp [getDirSizeAux, pathsSize]
  | succ h ih =>
    intro pending total hp
    by_cases hpe : pending = []
    · subst hpe
      simp [getDirSizeAux, pathsSize]
    · obtain ⟨hsum, hmem⟩ := sizeLevel_tree t hwf h pending hp
      rcases hstep : sizeLevelStep (fsOfTree t) false pending with ⟨added, next⟩
      rw [hstep] at hsum hmem
      dsimp at hsum hmem
      simp only [getDirSizeAux, if_neg hpe, hstep]
      rw [ih next (total + added) hmem]
      congr 1
      omega

/-- C7: for every well-formed symlink-free directory tree, the accumulator
returns exactly the sum of the byte sizes of all regular files transitively
reachable through its directories, once the fuel covers the tree height
(nothing under the measured root is skipped — the named `.git` and
`node_modules` subtrees of the third conjunct are counted too); the
100+200+300-byte directory with an empty subdirectory yields 600; a
symlinked file is counted only when follow-symlinks is enabled; and an
entry whose stat fails contributes zero without failing the computation. -/
theorem getDirSize_sums_files (es : List (String × FsTree))
    (hwf : treeWF (FsTree.dir es) = true) (fuel : Nat)
    (hfuel : treeHeight (FsTree.dir es) ≤ fuel) :
    getDirSizeBytes (fsOfTree (FsTree.dir es)) false [] fuel
      = some (treeSize (FsTree.dir es))
    ∧ getDirSizeBytes (fsOfTree (FsTree.dir egEntries600)) false [] 2 = some 600
    ∧ getDirSizeBytes (fsOfTree (FsTree.dir egEntriesSkip)) false [] 2 = some 16
    ∧ getDirSizeBytes fsSymFile false ["d"] 2 = some 5
    ∧ getDirSizeBytes fsSymFile true ["d"] 2 = some 12
    ∧ getDirSizeBytes fsStatFail false ["d"] 2 = some 3 := by
  refine ⟨?_, rfl, rfl, rfl, rfl, rfl⟩
  have haux := getDirSizeAux_tree (FsTree.dir es) hwf fuel [[]] 0 ?_
  · rw [getDirSizeBytes, haux]
    congr 1
    rw [pathsSize_cons]
    dsimp only [subtreeAt, Option.getD_some]
    rw [pathsSize_nil]
    omega
  · intro p hp
    rcases List.mem_cons.mp hp with rfl | hp'
    · exact ⟨es, rfl, hfuel⟩
    · cases hp'

/-- Witness for C7 at the concrete 600-byte tree. -/
theorem getDirSize_sums_files_witness :
    getDirSizeBytes (fsOfTree (FsTree.dir egEntries600)) false [] 2
      = some (treeSize (FsTree.dir egEntries600)) :=
  (getDirSize_sums_files egEntries600 (by decide) 2 (by decide)).1

theorem getDirSizeAux_loop :
    ∀ fuel (p : FsPath) (total : Nat),
      getDirSizeAux fsLoop true fuel [p] total = none := by
  intro fuel
  induction fuel with
  | zero =>
    intro p total
    simp [getDirSizeAux]
  | succ fuel ih =>
    intro p total
    have hls : sizeLevelStep fsLoop true [p] = (0, [pathJoin p "loop"]) := rfl
    have hne : ([p] : List FsPath) ≠ [] := by simp
    simp only [getDirSizeAux, if_neg hne, hls]
    exact ih (pathJoin p "loop") (total + 0)

/-- C10 counterexample: with follow-symlinks enabled on the realistic
symlink-cycle filesystem `fsLoop` (every directory holds a symlink `loop`
back to itself), `getDirSizeBytes` never resolves — the pending frontier is
never empty, whatever the fuel. -/
theorem getDirSize_cycle_diverges : sizeDiverges fsLoop true ["a"] := by
  intro fuel
  exact getDirSizeAux_loop fuel ["a"] 0

/-- C10 amended: `getDirSizeBytes` resolves to a non-negative integer on
every input whose traversal terminates — in particular it returns 0 when
the root itself cannot be listed (including a nonexistent path), and it
terminates on every well-formed symlink-free tree with follow-symlinks
off (and on the cycle filesystem with follow off) — but totality does not
extend to follow-symlinks enabled: a symlink cycle makes it diverge. -/
theorem getDirSize_total_amended :
    (∀ (fs : Fs) (follow : Bool) (root : FsPath) (fuel : Nat),
      fs.readdir root = none → 1 ≤ fuel →
      getDirSizeBytes fs follow root fuel = some 0)
    ∧ (∀ (es : List (String × FsTree)) (fuel : Nat),
        treeWF (FsTree.dir es) = true → treeHeight (FsTree.dir es) ≤ fuel →
        ∃ n, getDirSizeBytes (fsOfTree (FsTree.dir es)) false [] fuel = some n)
    ∧ getDirSizeBytes fsLoop false ["a"] 1 = some 0
    ∧ sizeDiverges fsLoop true ["a"] := by
  refine ⟨?_, ?_, rfl, ?_⟩
  · intro fs follow root fuel hrd hfuel
    have hls : sizeLevelStep fs follow [root] = (0, []) := by
      rw [sizeLevelStep_eq]
      simp [perDirAdded, perDirDirs, perDirSymDirs, perDirStats, hrd,
        classifySizeEntries, accumStatResults]
    cases fuel with
    | zero => omega
    | succ f =>
      have hne : ([root] : List FsPath) ≠ [] := by simp
      rw [getDirSizeBytes]
      simp only [getDirSizeAux, if_neg hne, hls]
      exact getDirSizeAux_nil fs follow f 0
  · intro es fuel hwf hfuel
    refine ⟨treeSize (FsTree.dir es), ?_⟩
    have haux := getDirSizeAux_tree (FsTree.dir es) hwf fuel [[]] 0 ?_
    · rw [getDirSizeBytes, haux]
      congr 1
      rw [pathsSize_cons]
      dsimp only [subtreeAt, Option.getD_some]
      rw [pathsSize_nil]
      omega
    · intro p hp
      rcases List.mem_cons.mp hp with rfl | hp'
      · exact ⟨es, rfl, hfuel⟩
      · cases hp'
  · intro fuel
    exact getDirSizeAux_loop fuel ["a"] 0

/-- Witness for C10's amended theorem: an unlistable root yields 0. -/
theorem getDirSize_total_amended_witness :
    getDirSizeBytes fsDepth2 false ["nope"] 1 = some 0 :=
  (getDirSize_total_amended).1 fsDepth2 false ["nope"] 1 (by decide) (by omega)

theorem delOutcome_partition (l : List DelOutcome) :
    (l.filter (fun o => o.success)).length
      + (l.filter (fun o => !o.success)).length = l.length := by
  induction l with
  | nil => rfl
  | cons o rest ih =>
    by_cases h : o.success = true <;>
      simp only [List.filter_cons, h, Bool.not_true, Bool.not_false,
        if_true, if_false, List.length_cons] <;>
      simp only [Bool.false_eq_true, if_false, if_true, List.length_cons] <;>
      omega

theorem deleteResults_spec (env : FsPath → Nat → RmRes) :
    ∀ rows : List FsPath,
      (((rows.map (deleteTask env)).map Prod.fst).map (fun o => o.path)
        = rows)
      ∧ ((rows.map (deleteTask env)).filterMap Prod.snd
        = rows.filterMap (fun p =>
            match removeDir (env p) with
            | .ok _ => none
            | .error e => some ⟨p, e⟩)) := by
  intro rows
  induction rows with
  | nil => exact ⟨rfl, rfl⟩
  | cons p rest ih =>
    rcases h : removeDir (env p) with u | e
    · simp only [List.map_cons, List.filterMap_cons, deleteTask, h]
      exact ⟨by rw [ih.1], by rw [ih.2]⟩
    · simp only [List.map_cons, List.filterMap_cons, deleteTask, h]
      exact ⟨by rw [ih.1], by rw [ih.2]⟩

/-- C8: the deletion phase processes every target to completion — the
outcome list covers the input paths in order, removed and failed counts
partition the input, and each failure is recorded with its path and error
message; `fs.rm` with `force: true` turns an already-missing target into a
success, and a target failing every attempt fails with the last error after
the bounded retries; on the concrete 5-target run whose 3rd target always
fails with a permission error, the phase reports 4 successes, 1 recorded
failure, and the 4 succeeding removals are exactly the other 4 targets. -/
theorem deletion_partial_failure_tolerance (env : FsPath → Nat → RmRes)
    (rows : List FsPath) :
    ((deletePhase env rows).removed + (deletePhase env rows).failed
      = rows.length)
    ∧ ((deletePhase env rows).outcomes.map (fun o => o.path) = rows)
    ∧ ((deletePhase env rows).errors = rows.filterMap (fun p =>
        match removeDir (env p) with
        | .ok _ => none
        | .error e => some ⟨p, e⟩))
    ∧ (∀ attempts : Nat → RmRes, attempts 0 = RmRes.missing →
        removeDir attempts = Except.ok ())
    ∧ (∀ (attempts : Nat → RmRes) (m : String),
        (∀ i, attempts i = RmRes.err m) →
        removeDir attempts = Except.error m)
    ∧ (deletePhase egDelEnv egDelPaths).removed = 4
    ∧ (deletePhase egDelEnv egDelPaths).failed = 1
    ∧ (deletePhase egDelEnv egDelPaths).errors
        = [⟨["p3"], "EACCES: permission denied"⟩]
    ∧ removedPaths (deletePhase egDelEnv egDelPaths)
        = [["p1"], ["p2"], ["p4"], ["p5"]] := by
  obtain ⟨hpaths, herrs⟩ := deleteResults_spec env rows
  refine ⟨?_, hpaths, herrs, ?_, ?_, rfl, rfl, rfl, rfl⟩
  · have h := delOutcome_partition ((rows.map (deleteTask env)).map Prod.fst)
    calc (deletePhase env rows).removed + (deletePhase env rows).failed
        = ((rows.map (deleteTask env)).map Prod.fst).length := h
      _ = rows.length := by simp
  · intro attempts h
    simp [removeDir, rmAttempts, h]
  · intro attempts m h
    simp [removeDir, rmAttempts, h]

/-- Witness for C8 at the concrete environment: the counts partition the
five targets and an already-missing target succeeds. -/
theorem deletion_partial_failure_tolerance_witness :
    ((deletePhase egDelEnv egDelPaths).removed
        + (deletePhase egDelEnv egDelPaths).failed = egDelPaths.length)
    ∧ removeDir (fun _ => RmRes.missing) = Except.ok () :=
  ⟨(deletion_partial_failure_tolerance egDelEnv egDelPaths).1,
   (deletion_partial_failure_tolerance egDelEnv egDelPaths).2.2.2.1
     (fun _ => RmRes.missing) rfl⟩

/-- C9: before handoff to rendering the rows are sorted in descending
order of `(r.size || 0)` — a row with a failed/absent size ordering as 0 —
the sorted sequence is a permutation of the computed rows, and
`totalBytes` is the sum over all rows of `(r.size || 0)`, failed or absent
sizes contributing 0. -/
theorem report_sorted_and_total (rows : List SizeRow) :
    List.Sorted (fun a b => rowSize b ≤ rowSize a) (sortRows rows)
    ∧ (sortRows rows).Perm rows
    ∧ totalBytesOf rows = (rows.map rowSize).sum := by
  unfold sortRows
  refine ⟨?_, List.mergeSort_perm rows _, ?_⟩
  · have htrans : ∀ a b c : SizeRow,
        (decide (rowSize b ≤ rowSize a)) = true →
        (decide (rowSize c ≤ rowSize b)) = true →
        (decide (rowSize c ≤ rowSize a)) = true := by
      intro a b c hab hbc
      exact decide_eq_true
        (le_trans (of_decide_eq_true hbc) (of_decide_eq_true hab))
    have htotal : ∀ a b : SizeRow,
        ((decide (rowSize b ≤ rowSize a))
          || (decide (rowSize a ≤ rowSize b))) = true := by
      intro a b
      rcases Nat.le_total (rowSize b) (rowSize a) with h | h <;> simp [h]
    have h := List.sorted_mergeSort htrans htotal rows
    exact h.imp (fun hab => of_decide_eq_true hab)
  · have haux : ∀ (l : List SizeRow) (a : Nat),
        l.foldl (fun s r => s + rowSize r) a = a + (l.map rowSize).sum := by
      intro l
      induction l with
      | nil => intro a; simp
      | cons r rest ih =>
        intro a
        simp only [List.foldl_cons, List.map_cons, List.sum_cons, ih]
        omega
    rw [totalBytesOf, haux]
    omega
